import Mathlib

/-!
# Banker's algorithm (`src/banker.js`): shallow embedding and verification

The JavaScript class `OS` keeps four arrays, `available` (one number per
resource type) and `max`, `alloc`, `need` (one row per process), and offers
`find`, `request` and `release`; its constructor stores the four arrays.

Modelling conventions.

* Numbers are `Int`: the embedding covers integer entries in the range where
  JavaScript number arithmetic is exact integer arithmetic.
* Arrays are lists, copied by value (rows are assumed not to alias each other).
* Reading a missing row and indexing it (`undefined[r]`) throws a `TypeError`
  in JavaScript; arithmetic on a missing cell yields `NaN`.  Both end a run of
  the model with a `Fault`.  A comparison against a missing cell is `false`, as
  in JavaScript, and does not end the run.
* The `while` loop of `find` is driven by a budget of `max.length` passes;
  running past the budget is the fault `outOfFuel`.  On a well-shaped state
  `find` is proved to return a result, so the budget is never exhausted there.
* Process ids pushed on `stack` are the keys of `for ... in` (the strings
  `"0"`, `"1"`, ...); they are modelled as the natural numbers they denote.
-/

namespace Banker

/-! ## Data model -/

/-- The class `OS`: the four fields its constructor stores (lines 2-7).  A value
of this type is a state of the system. -/
structure OS where
  available : List Int
  max : List (List Int)
  alloc : List (List Int)
  need : List (List Int)
  deriving DecidableEq, Repr

/-- The object returned by `find` and `request`: the flag `isSafe` and `stack`. -/
structure Result where
  isSafe : Bool
  stack : List Nat
  deriving DecidableEq, Repr

/-- Ways in which a run leaves the integer model. -/
inductive Fault where
  | typeError
  | notANumber
  | outOfFuel
  deriving DecidableEq, Repr

/-- The outcome of running a method: a value, or a fault. -/
inductive Exec (α : Type) where
  | ok (a : α)
  | fault (f : Fault)
  deriving DecidableEq, Repr

/-- The local variables of `find` (lines 61-69). -/
structure Search where
  tempAvailable : List Int
  finish : List Bool
  stack : List Nat
  dispatchDetected : Bool
  deriving DecidableEq, Repr

/-! ## `find` (lines 59-107) -/

/-- Lines 84-88: `tempAvailable.filter((count, r) => need[pid][r] > count).length > 0`.
The callback runs once per entry of `tempAvailable`; a need row shorter than
`tempAvailable` compares `undefined > count`, which is `false`, so pairing the
two lists up to the shorter one is exact. -/
def exceedsRow (needRow work : List Int) : Bool :=
  decide (((List.zip needRow work).filter (fun xc => decide (xc.1 > xc.2))).length > 0)

/-- The need test of line 84 for process `pid`.  The row `this.need[pid]` is only
read inside the filter callback, hence not at all when `tempAvailable` is empty. -/
def needExceeds (s : OS) (work : List Int) (pid : Nat) : Exec Bool :=
  match work with
  | [] => .ok false
  | _ :: _ =>
    match s.need[pid]? with
    | none => .fault .typeError
    | some needRow => .ok (exceedsRow needRow work)

/-- Entry-wise `count + row[r]` over the entries of `work`; a missing `row[r]`
makes the sum `NaN`. -/
def addRow : List Int → List Int → Exec (List Int)
  | [], _ => .ok []
  | _ :: _, [] => .fault .notANumber
  | c :: work, a :: row =>
    match addRow work row with
    | .ok t => .ok ((c + a) :: t)
    | .fault f => .fault f

/-- Line 93: `tempAvailable.map((count, r) => count + this.alloc[pid][r])`. -/
def addAlloc (s : OS) (work : List Int) (pid : Nat) : Exec (List Int) :=
  match work with
  | [] => .ok []
  | _ :: _ =>
    match s.alloc[pid]? with
    | none => .fault .typeError
    | some row => addRow work row

/-- The body of the `for (const pid in finish)` loop (lines 80-98). -/
def visit (s : OS) (st : Search) (pid : Nat) : Exec Search :=
  if st.finish[pid]? = some false then
    match needExceeds s st.tempAvailable pid with
    | .fault f => .fault f
    | .ok true => .ok st
    | .ok false =>
      match addAlloc s st.tempAvailable pid with
      | .fault f => .fault f
      | .ok w =>
        .ok { tempAvailable := w
              finish := st.finish.set pid true
              stack := st.stack ++ [pid]
              dispatchDetected := true }
  else .ok st

/-- The `for (const pid in finish)` loop over the given process ids (lines 79-99). -/
def pass (s : OS) : Search → List Nat → Exec Search
  | st, [] => .ok st
  | st, pid :: rest =>
    match visit s st pid with
    | .fault f => .fault f
    | .ok st' => pass s st' rest

/-- Line 75: `finish.filter(isFinish => isFinish == false).length`. -/
def unfinished (finish : List Bool) : Nat :=
  (finish.filter (fun isFinish => isFinish == false)).length

/-- The `while` loop of lines 71-100, with a budget of passes. -/
def findLoop (s : OS) : Nat → Search → Exec Search
  | fuel, st =>
    if st.dispatchDetected = true ∧ unfinished st.finish ≠ 0 then
      match fuel with
      | 0 => .fault .outOfFuel
      | fuel + 1 =>
        match pass s { st with dispatchDetected := false } (List.range st.finish.length) with
        | .fault f => .fault f
        | .ok st' => findLoop s fuel st'
    else .ok st

/-- The locals of `find` before the loop (lines 61-69). -/
def initSearch (s : OS) : Search :=
  { tempAvailable := s.available
    finish := List.replicate s.max.length false
    stack := []
    dispatchDetected := true }

/-- Lines 103-106: the result object built from the final locals. -/
def verdict (st : Search) : Result :=
  if (st.finish.filter (fun isFinish => isFinish)).length = st.finish.length then
    { isSafe := true, stack := st.stack }
  else
    { isSafe := false, stack := st.stack }

/-- The locals of `find` when the `while` loop is left. -/
def findSearch (s : OS) : Exec Search :=
  findLoop s s.max.length (initSearch s)

/-- The method `find` (lines 59-107).  It does not write to the state. -/
def find (s : OS) : Exec Result :=
  match findSearch s with
  | .fault f => .fault f
  | .ok st => .ok (verdict st)

/-! ## `request` (lines 15-54) -/

/-- Where the first loop of `request` ends. -/
inductive Check where
  | exceedsNeed
  | mustWait
  | pass
  deriving DecidableEq, Repr

/-- JavaScript `q > cell` where the cell may be missing (`undefined`). -/
def jsGt (q : Int) : Option Int → Bool
  | some x => decide (q > x)
  | none => false

/-- Lines 16-28 over the entries of `req`, with the rows advanced in step:
the need test, then the availability test, for one resource type at a time. -/
def checkLoop : List Int → List Int → List Int → Check
  | [], _, _ => .pass
  | q :: req, needRow, avail =>
    if jsGt q needRow.head? then .exceedsNeed
    else if jsGt q avail.head? then .mustWait
    else checkLoop req needRow.tail avail.tail

/-- The first loop of `request` (lines 16-28); `this.need[pid]` is read only
when `req` has an entry. -/
def requestCheck (s : OS) (pid : Nat) (req : List Int) : Exec Check :=
  match req with
  | [] => .ok .pass
  | _ :: _ =>
    match s.need[pid]? with
    | none => .fault .typeError
    | some needRow => .ok (checkLoop req needRow s.available)

/-- Entry-wise `row[r] += req[r]` for every index `r` of `req`. -/
def addReq : List Int → List Int → Exec (List Int)
  | row, [] => .ok row
  | [], _ :: _ => .fault .notANumber
  | a :: row, q :: req =>
    match addReq row req with
    | .ok t => .ok ((a + q) :: t)
    | .fault f => .fault f

/-- Entry-wise `row[r] -= req[r]` for every index `r` of `req`. -/
def subReq : List Int → List Int → Exec (List Int)
  | row, [] => .ok row
  | [], _ :: _ => .fault .notANumber
  | a :: row, q :: req =>
    match subReq row req with
    | .ok t => .ok ((a - q) :: t)
    | .fault f => .fault f

/-- The tentative grant (lines 31-38). -/
def grant (s : OS) (pid : Nat) (req : List Int) : Exec OS :=
  match req with
  | [] => .ok s
  | _ :: _ =>
    match s.alloc[pid]?, s.need[pid]? with
    | some allocRow, some needRow =>
      match addReq allocRow req, subReq s.available req, subReq needRow req with
      | .ok a, .ok av, .ok nd =>
        .ok { available := av, max := s.max, alloc := s.alloc.set pid a, need := s.need.set pid nd }
      | _, _, _ => .fault .notANumber
    | _, _ => .fault .typeError

/-- The rollback of the tentative grant (lines 43-51). -/
def rollback (s : OS) (pid : Nat) (req : List Int) : Exec OS :=
  match req with
  | [] => .ok s
  | _ :: _ =>
    match s.alloc[pid]?, s.need[pid]? with
    | some allocRow, some needRow =>
      match subReq allocRow req, addReq s.available req, addReq needRow req with
      | .ok a, .ok av, .ok nd =>
        .ok { available := av, max := s.max, alloc := s.alloc.set pid a, need := s.need.set pid nd }
      | _, _, _ => .fault .notANumber
    | _, _ => .fault .typeError

/-- The method `request` (lines 15-54): the returned object and the state it leaves. -/
def request (s : OS) (pid : Nat) (req : List Int) : Exec (Result × OS) :=
  match requestCheck s pid req with
  | .fault f => .fault f
  | .ok .exceedsNeed => .ok ({ isSafe := false, stack := [] }, s)
  | .ok .mustWait => .ok ({ isSafe := true, stack := [] }, s)
  | .ok .pass =>
    match grant s pid req with
    | .fault f => .fault f
    | .ok t =>
      match find t with
      | .fault f => .fault f
      | .ok res =>
        if res.isSafe = false then
          match rollback t pid req with
          | .fault f => .fault f
          | .ok u => .ok (res, u)
        else .ok (res, t)

/-! ## `release` (lines 112-121) -/

/-- The method `release`: for every index `r` of `available`,
`available[r] += alloc[pid][r]`, `need[pid][r] = 0`, `alloc[pid][r] = 0`. -/
def release (s : OS) (pid : Nat) : Exec OS :=
  match s.available with
  | [] => .ok s
  | _ :: _ =>
    match s.alloc[pid]?, s.need[pid]? with
    | some allocRow, some needRow =>
      match addRow s.available allocRow with
      | .fault f => .fault f
      | .ok av =>
        .ok { available := av
              max := s.max
              alloc := s.alloc.set pid
                (List.replicate s.available.length 0 ++ allocRow.drop s.available.length)
              need := s.need.set pid
                (List.replicate s.available.length 0 ++ needRow.drop s.available.length) }
    | _, _ => .fault .typeError

/-- The state built by `factory` (lines 128-153). -/
def factory : OS :=
  { available := [3, 3, 2]
    max := [[7, 5, 3], [3, 2, 2], [9, 0, 2], [2, 2, 2], [4, 3, 3]]
    alloc := [[0, 1, 0], [2, 0, 0], [3, 0, 2], [2, 1, 1], [0, 0, 2]]
    need := [[7, 4, 3], [1, 2, 2], [6, 0, 0], [0, 1, 1], [4, 3, 1]] }

/-- The state of the first scenario of `main` after line 163,
`request({ pid: 1, req: [1, 0, 2] })`. -/
def factoryAfterGrant : OS :=
  { available := [2, 3, 0]
    max := [[7, 5, 3], [3, 2, 2], [9, 0, 2], [2, 2, 2], [4, 3, 3]]
    alloc := [[0, 1, 0], [3, 0, 2], [3, 0, 2], [2, 1, 1], [0, 0, 2]]
    need := [[7, 4, 3], [0, 2, 0], [6, 0, 0], [0, 1, 1], [4, 3, 1]] }

/-! ## Vocabulary of the specification -/

/-- The entry `M[p][r]` of a matrix, read as `0` outside the matrix. -/
def cell (M : List (List Int)) (p r : Nat) : Int :=
  (M.getD p []).getD r 0

/-- The shape of a state with `n = max.length` processes and
`m = available.length` resource types: `alloc` and `need` have `n` rows and
every row of `max`, `alloc` and `need` has `m` entries. -/
def WellShaped (s : OS) : Prop :=
  s.alloc.length = s.max.length ∧ s.need.length = s.max.length ∧
  (∀ row ∈ s.max, row.length = s.available.length) ∧
  (∀ row ∈ s.alloc, row.length = s.available.length) ∧
  (∀ row ∈ s.need, row.length = s.available.length)

instance (s : OS) : Decidable (WellShaped s) := by
  unfold WellShaped; infer_instance

/-- Every entry of `Alloc` is non-negative. -/
def AllocNonneg (s : OS) : Prop :=
  ∀ p, p < s.max.length → ∀ r, r < s.available.length → 0 ≤ cell s.alloc p r

instance (s : OS) : Decidable (AllocNonneg s) := by
  unfold AllocNonneg; infer_instance

/-- Replaying a sequence of processes against a working vector: each process
in turn has `Need[p][r] <= work[r]` for every resource type `r`, and then
`work` becomes `work + Alloc[p]`. -/
def Replay (s : OS) : List Int → List Nat → Prop
  | _, [] => True
  | work, p :: rest =>
    (∀ r, r < s.available.length → cell s.need p r ≤ work.getD r 0) ∧
    Replay s (List.zipWith (· + ·) work (s.alloc.getD p [])) rest

/-- A safe sequence: every process id `0..n-1` exactly once, replayable from
`work = Available`. -/
def SafeSequence (s : OS) (seq : List Nat) : Prop :=
  seq.Perm (List.range s.max.length) ∧ Replay s s.available seq

/-- The working vector after the processes of `seq` have finished in turn. -/
def workAfter (s : OS) (work : List Int) (seq : List Nat) : List Int :=
  seq.foldl (fun w p => List.zipWith (· + ·) w (s.alloc.getD p [])) work

/-- The tentative state `T` of a request, in the words of the specification:
`Alloc[pid] += req`, `Available -= req`, `Need[pid] -= req`, every other row
and `Max` unchanged. -/
def tentativeState (s : OS) (pid : Nat) (req : List Int) : OS :=
  { available := List.zipWith (· - ·) s.available req
    max := s.max
    alloc := s.alloc.set pid (List.zipWith (· + ·) (s.alloc.getD pid []) req)
    need := s.need.set pid (List.zipWith (· - ·) (s.need.getD pid []) req) }

/-- The state after `release(pid)`, in the words of the specification:
`Available += Alloc[pid]`, then `Alloc[pid]` and `Need[pid]` are all zero. -/
def releasedState (s : OS) (pid : Nat) : OS :=
  { available := List.zipWith (· + ·) s.available (s.alloc.getD pid [])
    max := s.max
    alloc := s.alloc.set pid (List.replicate s.available.length 0)
    need := s.need.set pid (List.replicate s.available.length 0) }

/-- Invariant 1: `Alloc[p][r] + Need[p][r] == Max[p][r]` for all `p`, `r`. -/
def Inv1 (s : OS) : Prop :=
  ∀ p, p < s.max.length → ∀ r, r < s.available.length →
    cell s.alloc p r + cell s.need p r = cell s.max p r

instance (s : OS) : Decidable (Inv1 s) := by
  unfold Inv1; infer_instance

/-- Invariant 2: every entry of `Alloc`, `Need` and `Available` is `>= 0`. -/
def NonNeg (s : OS) : Prop :=
  (∀ r, r < s.available.length → 0 ≤ s.available.getD r 0) ∧
  ∀ p, p < s.max.length → ∀ r, r < s.available.length →
    0 ≤ cell s.alloc p r ∧ 0 ≤ cell s.need p r

instance (s : OS) : Decidable (NonNeg s) := by
  unfold NonNeg; infer_instance

/-- The conserved quantity of invariant 3: `Available[r] + Σ_p Alloc[p][r]`. -/
def total (s : OS) (r : Nat) : Int :=
  s.available.getD r 0 + (s.alloc.map (fun row => row.getD r 0)).sum

/-! ## Vocabulary of the proofs about `find` -/

/-- Process `p` cannot be granted from `work`: some resource type is short. -/
def Blocked (s : OS) (work : List Int) (p : Nat) : Prop :=
  ∃ r, r < s.available.length ∧ work.getD r 0 < cell s.need p r

/-- No unfinished process can be granted from the current working vector. -/
def Stuck (s : OS) (st : Search) : Prop :=
  ∀ p, st.finish[p]? = some false → Blocked s st.tempAvailable p

/-- What the locals of `find` satisfy at every point of the search. -/
structure SearchInv (s : OS) (st : Search) : Prop where
  finish_len : st.finish.length = s.max.length
  work_len : st.tempAvailable.length = s.available.length
  work_eq : st.tempAvailable = workAfter s s.available st.stack
  replay : Replay s s.available st.stack
  nodup : st.stack.Nodup
  mem_iff : ∀ p, p ∈ st.stack ↔ st.finish[p]? = some true

/-! ## Counting the passes of `find` -/

/-- The `while` loop of lines 71-100 once more, returning with the final locals
the number of passes over the process list that were executed. -/
def findLoopPasses (s : OS) : Nat → Search → Exec (Search × Nat)
  | fuel, st =>
    if st.dispatchDetected = true ∧ unfinished st.finish ≠ 0 then
      match fuel with
      | 0 => .fault .outOfFuel
      | fuel + 1 =>
        match pass s { st with dispatchDetected := false } (List.range st.finish.length) with
        | .fault f => .fault f
        | .ok st' =>
          match findLoopPasses s fuel st' with
          | .fault f => .fault f
          | .ok (st'', k) => .ok (st'', k + 1)
    else .ok (st, 0)

/-- Forgetting the pass count. -/
def dropPasses : Exec (Search × Nat) → Exec Search
  | .ok (st, _) => .ok st
  | .fault f => .fault f

/-! ## The constructor and calls as steps -/

/-- The constructor of `OS` (lines 2-7): the four arrays of the configuration
object are stored as they are.  No test is made and nothing is derived. -/
def OS.constructor (available : List Int) (max alloc need : List (List Int)) : Exec OS :=
  .ok { available := available, max := max, alloc := alloc, need := need }

/-- A call of `find` as a step of the system: the returned object and the state
the call leaves.  Lines 59-107 assign only to the locals `tempAvailable`,
`finish`, `stack` and `dispatchDetected`; `tempAvailable` starts as a copy of
`this.available` and is replaced by a new array, never written in place. -/
def findCall (s : OS) : Exec (Result × OS) :=
  match find s with
  | .fault f => .fault f
  | .ok res => .ok (res, s)

/-- Process `p` can be granted from `Available` as it stands:
`Need[p][r] <= Available[r]` for every resource type `r`. -/
def Grantable (s : OS) (p : Nat) : Prop :=
  ∀ r, r < s.available.length → cell s.need p r ≤ s.available.getD r 0

instance (s : OS) (p : Nat) : Decidable (Grantable s p) := by
  unfold Grantable; infer_instance

/-! ## Sequences of calls -/

/-- Every entry of `Available` is non-negative. -/
def AvailableNonneg (s : OS) : Prop :=
  ∀ r, r < s.available.length → 0 ≤ s.available.getD r 0

instance (s : OS) : Decidable (AvailableNonneg s) := by
  unfold AvailableNonneg; infer_instance

/-- Whether `find` reports safe on the state: it returns with `isSafe == true`. -/
def reportsSafe (s : OS) : Bool :=
  match find s with
  | .ok res => res.isSafe
  | .fault _ => false

/-- A call of one of the two mutating methods of `OS`. -/
inductive Call where
  | request (pid : Nat) (req : List Int)
  | release (pid : Nat)
  deriving DecidableEq, Repr

/-- The state one call leaves. -/
def step (s : OS) : Call → Exec OS
  | .request pid req =>
    match request s pid req with
    | .ok (_, s') => .ok s'
    | .fault f => .fault f
  | .release pid => release s pid

/-- The state a sequence of calls leaves, made one after the other. -/
def run (s : OS) : List Call → Exec OS
  | [] => .ok s
  | c :: rest =>
    match step s c with
    | .ok s' => run s' rest
    | .fault f => .fault f

/-- A call with a valid `pid` and, for `request`, a request vector of length
`m` with non-negative entries, in a system of `n` processes and `m` resource
types. -/
def Call.Admissible (n m : Nat) : Call → Prop
  | .request pid req => pid < n ∧ req.length = m ∧ ∀ r, r < m → 0 ≤ req.getD r 0
  | .release pid => pid < n

/-- A state with one process whose `Available` and `Need` entries are negative. -/
def negativeAvailable : OS :=
  { available := [-1], max := [[-1]], alloc := [[0]], need := [[-1]] }

/-- A state with three processes and one resource type, all entries
non-negative and `Need = Max - Alloc`. -/
def threeProcesses : OS :=
  { available := [2], max := [[5], [5], [2]], alloc := [[3], [2], [0]], need := [[2], [3], [2]] }

/-! ## Vectors -/

theorem getElem?_getD_row {M : List (List Int)} {p : Nat} {row : List Int}
    (h : M[p]? = some row) : M.getD p [] = row := by
  simp [List.getD_eq_getElem?_getD, h]

theorem cell_of_row {M : List (List Int)} {p : Nat} {row : List Int}
    (h : M[p]? = some row) (r : Nat) : cell M p r = row.getD r 0 := by
  unfold cell
  rw [getElem?_getD_row h]

theorem row_length {M : List (List Int)} {m p : Nat} {row : List Int}
    (hM : ∀ x ∈ M, x.length = m) (h : M[p]? = some row) : row.length = m :=
  hM row (List.mem_iff_getElem?.mpr ⟨p, h⟩)

theorem row_exists (M : List (List Int)) (p : Nat) (h : p < M.length) :
    ∃ row, M[p]? = some row :=
  ⟨M[p], List.getElem?_eq_getElem h⟩

theorem getD_zipWith_add (a b : List Int) (r : Nat) (h : a.length = b.length) :
    (List.zipWith (· + ·) a b).getD r 0 = a.getD r 0 + b.getD r 0 := by
  induction a generalizing b r with
  | nil =>
    cases b with
    | nil => simp
    | cons y b => simp at h
  | cons x a ih =>
    cases b with
    | nil => simp at h
    | cons y b =>
      cases r with
      | zero => simp
      | succ r => simpa using ih b r (by simpa using h)

theorem addRow_ok (work row : List Int) (h : work.length ≤ row.length) :
    addRow work row = .ok (List.zipWith (· + ·) work row) := by
  induction work generalizing row with
  | nil => simp [addRow]
  | cons c work ih =>
    cases row with
    | nil => simp at h
    | cons a row =>
      have := ih row (by simpa using h)
      simp [addRow, this]

theorem exceedsRow_false_iff (needRow work : List Int) (h : needRow.length = work.length) :
    exceedsRow needRow work = false ↔
      ∀ r, r < work.length → needRow.getD r 0 ≤ work.getD r 0 := by
  induction needRow generalizing work with
  | nil =>
    cases work with
    | nil => simp [exceedsRow]
    | cons c work => simp at h
  | cons x needRow ih =>
    cases work with
    | nil => simp at h
    | cons c work =>
      have ih' := ih work (by simpa using h)
      simp only [exceedsRow, List.zip_cons_cons, List.filter_cons] at ih' ⊢
      by_cases hx : x > c
      · simp only [hx, decide_True, if_true, List.length_cons]
        constructor
        · intro hh; simp at hh
        · intro hh
          have := hh 0 (by simp)
          simp at this
          omega
      · simp only [hx, decide_False, Bool.false_eq_true, if_false]
        rw [ih']
        constructor
        · intro hh r hr
          cases r with
          | zero => simpa using not_lt.mp hx
          | succ r => simpa using hh r (by simpa using hr)
        · intro hh r hr
          simpa using hh (r + 1) (by simpa using hr)

/-! ## One visit of the inner loop of `find` -/

theorem needExceeds_eq {s : OS} {work row : List Int} {pid : Nat}
    (h : s.need[pid]? = some row) (hl : row.length = work.length) :
    needExceeds s work pid = .ok (exceedsRow row work) := by
  cases work with
  | nil =>
    have : row = [] := List.length_eq_zero.mp (by simpa using hl)
    subst this
    simp [needExceeds, exceedsRow]
  | cons c work => simp [needExceeds, h]

theorem addAlloc_eq {s : OS} {work row : List Int} {pid : Nat}
    (h : s.alloc[pid]? = some row) (hl : work.length = row.length) :
    addAlloc s work pid = .ok (List.zipWith (· + ·) work row) := by
  cases work with
  | nil => simp [addAlloc]
  | cons c work =>
    simp only [addAlloc, h]
    exact addRow_ok _ _ (le_of_eq hl)

theorem workAfter_append (s : OS) (w : List Int) (seq : List Nat) (p : Nat) :
    workAfter s w (seq ++ [p]) =
      List.zipWith (· + ·) (workAfter s w seq) (s.alloc.getD p []) := by
  simp [workAfter, List.foldl_append]

theorem replay_append (s : OS) (w : List Int) (seq : List Nat) (p : Nat) :
    Replay s w (seq ++ [p]) ↔
      Replay s w seq ∧
        ∀ r, r < s.available.length → cell s.need p r ≤ (workAfter s w seq).getD r 0 := by
  induction seq generalizing w with
  | nil => simp [Replay, workAfter]
  | cons q seq ih =>
    show ((∀ r, r < s.available.length → cell s.need q r ≤ w.getD r 0) ∧
        Replay s (List.zipWith (· + ·) w (s.alloc.getD q [])) (seq ++ [p])) ↔ _
    rw [ih]
    show _ ↔ ((∀ r, r < s.available.length → cell s.need q r ≤ w.getD r 0) ∧
        Replay s (List.zipWith (· + ·) w (s.alloc.getD q [])) seq) ∧
        ∀ r, r < s.available.length → cell s.need p r ≤
          (workAfter s (List.zipWith (· + ·) w (s.alloc.getD q [])) seq).getD r 0
    tauto

theorem unfinished_set (finish : List Bool) (pid : Nat) (h : finish[pid]? = some false) :
    unfinished (finish.set pid true) + 1 = unfinished finish := by
  induction finish generalizing pid with
  | nil => simp at h
  | cons b finish ih =>
    cases pid with
    | zero =>
      simp at h
      subst h
      simp [unfinished]
    | succ pid =>
      have := ih pid (by simpa using h)
      simp only [unfinished, List.set_cons_succ, List.filter_cons] at this ⊢
      cases b
      · simpa using this
      · simpa using this

theorem visit_spec {s : OS} (hs : WellShaped s) {st : Search} (hI : SearchInv s st)
    {pid : Nat} (hp : pid < s.max.length) :
    ∃ st', visit s st pid = .ok st' ∧ SearchInv s st' ∧
      ((st' = st ∧ (st.finish[pid]? = some false → Blocked s st.tempAvailable pid)) ∨
       (st'.dispatchDetected = true ∧ unfinished st'.finish < unfinished st.finish)) := by
  obtain ⟨hal, hnl, -, har, hnr⟩ := hs
  obtain ⟨needRow, hneed⟩ := row_exists s.need pid (by omega)
  obtain ⟨allocRow, halloc⟩ := row_exists s.alloc pid (by omega)
  have hnlen := row_length hnr hneed
  have halen := row_length har halloc
  by_cases hf : st.finish[pid]? = some false
  · have hne : needExceeds s st.tempAvailable pid = .ok (exceedsRow needRow st.tempAvailable) :=
      needExceeds_eq hneed (by rw [hnlen, hI.work_len])
    cases hex : exceedsRow needRow st.tempAvailable with
    | true =>
      refine ⟨st, by simp [visit, hf, hne, hex], hI, Or.inl ⟨rfl, fun _ => ?_⟩⟩
      by_contra hb
      have : exceedsRow needRow st.tempAvailable = false := by
        rw [exceedsRow_false_iff _ _ (by rw [hnlen, hI.work_len])]
        intro r hr
        by_contra hlt
        apply hb
        refine ⟨r, by rw [← hI.work_len]; exact hr, ?_⟩
        rw [cell_of_row hneed]
        exact not_le.mp hlt
      rw [hex] at this
      exact Bool.noConfusion this
    | false =>
      have hle := (exceedsRow_false_iff _ _ (by rw [hnlen, hI.work_len])).mp hex
      have hadd : addAlloc s st.tempAvailable pid =
          .ok (List.zipWith (· + ·) st.tempAvailable allocRow) :=
        addAlloc_eq halloc (by rw [halen, hI.work_len])
      refine ⟨_, by simp [visit, hf, hne, hex, hadd]; rfl, ?_, Or.inr ⟨rfl, ?_⟩⟩
      · have hnot : pid ∉ st.stack := by
          intro hmem
          have := (hI.mem_iff pid).mp hmem
          rw [hf] at this
          simp at this
        refine ⟨by simp [hI.finish_len], by simp [hI.work_len, halen], ?_, ?_, ?_, ?_⟩
        · show _ = workAfter s s.available (st.stack ++ [pid])
          rw [workAfter_append, ← hI.work_eq, getElem?_getD_row halloc]
        · show Replay s s.available (st.stack ++ [pid])
          rw [replay_append]
          refine ⟨hI.replay, fun r hr => ?_⟩
          rw [← hI.work_eq, cell_of_row hneed]
          exact hle r (by rw [hI.work_len]; exact hr)
        · show (st.stack ++ [pid]).Nodup
          exact List.Nodup.append hI.nodup (List.nodup_singleton pid) (by simpa using hnot)
        · intro p
          show p ∈ st.stack ++ [pid] ↔ (st.finish.set pid true)[p]? = some true
          rw [List.getElem?_set]
          by_cases hpp : pid = p
          · subst hpp
            have : pid < st.finish.length := by rw [hI.finish_len]; exact hp
            simp [this]
          · have hpp' : p ≠ pid := fun h => hpp h.symm
            simp [hpp, hpp', hI.mem_iff p]
      · show unfinished (st.finish.set pid true) < unfinished st.finish
        have := unfinished_set st.finish pid hf
        omega
  · exact ⟨st, by simp [visit, hf], hI, Or.inl ⟨rfl, fun h => absurd h hf⟩⟩

/-! ## A pass and the outer loop of `find` -/

theorem pass_spec {s : OS} (hs : WellShaped s) (pids : List Nat)
    (hp : ∀ p ∈ pids, p < s.max.length) {st : Search} (hI : SearchInv s st) :
    ∃ st', pass s st pids = .ok st' ∧ SearchInv s st' ∧
      ((st' = st ∧ ∀ p ∈ pids, st.finish[p]? = some false → Blocked s st.tempAvailable p) ∨
       (st'.dispatchDetected = true ∧ unfinished st'.finish < unfinished st.finish)) := by
  induction pids generalizing st with
  | nil => exact ⟨st, rfl, hI, Or.inl ⟨rfl, fun p hp => absurd hp (List.not_mem_nil p)⟩⟩
  | cons pid rest ih =>
    obtain ⟨st1, hv, hI1, h1⟩ := visit_spec hs hI (hp pid (List.mem_cons_self pid rest))
    obtain ⟨st2, hpass, hI2, h2⟩ := ih (fun p hmem => hp p (List.mem_cons_of_mem pid hmem)) hI1
    refine ⟨st2, by simp [pass, hv, hpass], hI2, ?_⟩
    rcases h1 with ⟨heq, hblk⟩ | ⟨hd, hlt⟩
    · subst heq
      rcases h2 with ⟨heq2, hblk2⟩ | h2
      · refine Or.inl ⟨heq2, fun p hmem => ?_⟩
        rcases List.mem_cons.mp hmem with h | h
        · subst h; exact hblk
        · exact hblk2 p h
      · exact Or.inr h2
    · rcases h2 with ⟨heq2, -⟩ | ⟨hd2, hlt2⟩
      · subst heq2; exact Or.inr ⟨hd, hlt⟩
      · exact Or.inr ⟨hd2, lt_trans hlt2 hlt⟩

theorem findLoop_spec {s : OS} (hs : WellShaped s) (fuel : Nat) {st : Search}
    (hI : SearchInv s st) (hstuck : st.dispatchDetected = false → Stuck s st)
    (hfuel : st.dispatchDetected = true → unfinished st.finish ≤ fuel) :
    ∃ st', findLoop s fuel st = .ok st' ∧ SearchInv s st' ∧
      (unfinished st'.finish ≠ 0 → Stuck s st') := by
  induction fuel generalizing st with
  | zero =>
    by_cases hc : st.dispatchDetected = true ∧ unfinished st.finish ≠ 0
    · have := hfuel hc.1
      omega
    · refine ⟨st, by simp only [findLoop, if_neg hc], hI, fun hne => hstuck ?_⟩
      cases hd : st.dispatchDetected with
      | false => rfl
      | true => exact absurd ⟨hd, hne⟩ hc
  | succ fuel ih =>
    by_cases hc : st.dispatchDetected = true ∧ unfinished st.finish ≠ 0
    · have hI0 : SearchInv s { st with dispatchDetected := false } :=
        ⟨hI.finish_len, hI.work_len, hI.work_eq, hI.replay, hI.nodup, hI.mem_iff⟩
      obtain ⟨st1, hpass, hI1, h1⟩ := pass_spec hs (List.range st.finish.length)
        (fun p hmem => by rw [← hI.finish_len]; exact List.mem_range.mp hmem) hI0
      have hrun : findLoop s (fuel + 1) st = findLoop s fuel st1 := by
        rw [findLoop]
        simp only [if_pos hc, hpass]
      rw [hrun]
      rcases h1 with ⟨heq, hblk⟩ | ⟨hd, hlt⟩
      · subst heq
        refine ih hI1 (fun _ p hf => ?_) (fun hd => by simp at hd)
        have hlen : p < st.finish.length := by
          have := (List.getElem?_eq_some.mp hf).1
          simpa using this
        exact hblk p (List.mem_range.mpr hlen) hf
      · refine ih hI1 (fun h => by rw [hd] at h; exact Bool.noConfusion h) (fun _ => ?_)
        have := hfuel hc.1
        have hlt' : unfinished st1.finish < unfinished st.finish := hlt
        omega
    · refine ⟨st, by rw [findLoop]; simp only [if_neg hc], hI, fun hne => hstuck ?_⟩
      cases hd : st.dispatchDetected with
      | false => rfl
      | true => exact absurd ⟨hd, hne⟩ hc

theorem initSearch_inv (s : OS) : SearchInv s (initSearch s) := by
  refine ⟨by simp [initSearch], rfl, rfl, trivial, List.nodup_nil, fun p => ?_⟩
  simp only [initSearch, List.getElem?_replicate]
  split <;> simp

theorem unfinished_replicate (n : Nat) : unfinished (List.replicate n false) = n := by
  induction n with
  | zero => rfl
  | succ n ih =>
    simp only [unfinished] at ih ⊢
    simp [List.replicate_succ, List.filter_cons, ih]

theorem findSearch_spec {s : OS} (hs : WellShaped s) :
    ∃ st, findSearch s = .ok st ∧ SearchInv s st ∧ (unfinished st.finish ≠ 0 → Stuck s st) := by
  refine findLoop_spec hs _ (initSearch_inv s) (fun h => by simp [initSearch] at h) (fun _ => ?_)
  show unfinished (List.replicate s.max.length false) ≤ s.max.length
  rw [unfinished_replicate]

theorem verdict_stack (st : Search) : (verdict st).stack = st.stack := by
  unfold verdict
  split <;> rfl

theorem verdict_isSafe_iff (st : Search) :
    (verdict st).isSafe = true ↔ ∀ b ∈ st.finish, b = true := by
  unfold verdict
  split
  · next h => simpa [List.filter_length_eq_length] using h
  · next h =>
    simp only [Bool.false_eq_true, false_iff]
    intro hall
    exact h (List.filter_length_eq_length.mpr (by simpa using hall))

theorem unfinished_eq_zero_iff (finish : List Bool) :
    unfinished finish = 0 ↔ ∀ b ∈ finish, b = true := by
  simp [unfinished, List.filter_eq_nil_iff]

/-! ## Soundness and completeness of the search -/

theorem finish_false_of_not_mem {s : OS} {st : Search} (hI : SearchInv s st) {p : Nat}
    (hp : p < s.max.length) (hnot : p ∉ st.stack) : st.finish[p]? = some false := by
  have hlen : p < st.finish.length := by rw [hI.finish_len]; exact hp
  rw [List.getElem?_eq_getElem hlen]
  cases hb : st.finish[p] with
  | false => rfl
  | true =>
    exact absurd ((hI.mem_iff p).mpr (by rw [List.getElem?_eq_getElem hlen, hb])) hnot

theorem stack_lt {s : OS} {st : Search} (hI : SearchInv s st) {p : Nat}
    (hmem : p ∈ st.stack) : p < s.max.length := by
  have := (List.getElem?_eq_some.mp ((hI.mem_iff p).mp hmem)).1
  rw [← hI.finish_len]
  exact this

theorem safeSequence_of_finished {s : OS} {st : Search} (hI : SearchInv s st)
    (hall : ∀ b ∈ st.finish, b = true) : SafeSequence s st.stack := by
  refine ⟨(List.perm_ext_iff_of_nodup hI.nodup (List.nodup_range _)).mpr (fun p => ?_), hI.replay⟩
  rw [List.mem_range]
  constructor
  · exact stack_lt hI
  · intro hp
    by_contra hnot
    have hf := finish_false_of_not_mem hI hp hnot
    have := hall false (List.mem_iff_getElem?.mpr ⟨p, hf⟩)
    exact Bool.noConfusion this

theorem workAfter_getD {s : OS} (hs : WellShaped s) (seq : List Nat)
    (hseq : ∀ p ∈ seq, p < s.max.length) (w : List Int) (hw : w.length = s.available.length)
    (r : Nat) :
    (workAfter s w seq).getD r 0 = w.getD r 0 + (seq.map (fun p => cell s.alloc p r)).sum := by
  induction seq generalizing w with
  | nil => simp [workAfter]
  | cons p seq ih =>
    obtain ⟨row, hrow⟩ := row_exists s.alloc p
      (by rw [hs.1]; exact hseq p (List.mem_cons_self p seq))
    have hlen : row.length = s.available.length := row_length hs.2.2.2.1 hrow
    have hstep : workAfter s w (p :: seq) = workAfter s (List.zipWith (· + ·) w row) seq := by
      show workAfter s (List.zipWith (· + ·) w (s.alloc.getD p [])) seq = _
      rw [getElem?_getD_row hrow]
    rw [hstep, ih (fun q hq => hseq q (List.mem_cons_of_mem p hq)) _ (by simp [hw, hlen]),
      getD_zipWith_add w row r (by rw [hw, hlen])]
    simp only [List.map_cons, List.sum_cons, cell_of_row hrow]
    ring

theorem sum_le_of_subset (f : Nat → Int) (pre fin : List Nat) (hpre : pre.Nodup)
    (hfin : fin.Nodup) (hsub : ∀ p ∈ pre, p ∈ fin) (hf : ∀ p ∈ fin, 0 ≤ f p) :
    (pre.map f).sum ≤ (fin.map f).sum := by
  rw [← List.sum_toFinset f hpre, ← List.sum_toFinset f hfin]
  apply Finset.sum_le_sum_of_subset_of_nonneg
  · intro p hp
    exact List.mem_toFinset.mpr (hsub p (List.mem_toFinset.mp hp))
  · intro p hp _
    exact hf p (List.mem_toFinset.mp hp)

theorem exists_grantable {s : OS} (hs : WellShaped s) (hnn : AllocNonneg s)
    (fin : List Nat) (hfin : fin.Nodup) (hfn : ∀ p ∈ fin, p < s.max.length)
    (seq pre : List Nat) (hnd : (pre ++ seq).Nodup)
    (hlt : ∀ p ∈ pre ++ seq, p < s.max.length) (hpre : ∀ p ∈ pre, p ∈ fin)
    (hrep : Replay s (workAfter s s.available pre) seq) (hex : ∃ p ∈ seq, p ∉ fin) :
    ∃ p, p < s.max.length ∧ p ∉ fin ∧
      ∀ r, r < s.available.length →
        cell s.need p r ≤ (workAfter s s.available fin).getD r 0 := by
  induction seq generalizing pre with
  | nil =>
    obtain ⟨p, hp, -⟩ := hex
    exact absurd hp (List.not_mem_nil p)
  | cons q seq ih =>
    obtain ⟨hq, hrest⟩ := hrep
    by_cases hqf : q ∈ fin
    · have happ : pre ++ q :: seq = (pre ++ [q]) ++ seq := by simp
      refine ih (pre ++ [q]) (by rw [← happ]; exact hnd) (by rw [← happ]; exact hlt) ?_ ?_ ?_
      · intro p hp
        rcases List.mem_append.mp hp with h | h
        · exact hpre p h
        · rw [List.mem_singleton.mp h]; exact hqf
      · rw [workAfter_append]; exact hrest
      · obtain ⟨p, hp, hpf⟩ := hex
        rcases List.mem_cons.mp hp with h | h
        · exact absurd (h ▸ hqf) hpf
        · exact ⟨p, h, hpf⟩
    · refine ⟨q, hlt q (by simp), hqf, fun r hr => ?_⟩
      have hprend : pre.Nodup := (List.nodup_append.mp hnd).1
      have h1 := workAfter_getD hs pre (fun p hp => hlt p (List.mem_append_left _ hp))
        s.available rfl r
      have h2 := workAfter_getD hs fin hfn s.available rfl r
      have h3 := sum_le_of_subset (fun p => cell s.alloc p r) pre fin hprend hfin hpre
        (fun p hp => hnn p (hfn p hp) r hr)
      have h4 := hq r hr
      rw [h2]
      rw [h1] at h4
      linarith

theorem not_safeSequence_of_stuck {s : OS} (hs : WellShaped s) (hnn : AllocNonneg s)
    {st : Search} (hI : SearchInv s st) (hstuck : Stuck s st)
    (hun : ¬ ∀ b ∈ st.finish, b = true) (seq : List Nat) : ¬ SafeSequence s seq := by
  rintro ⟨hperm, hrep⟩
  have hex : ∃ p ∈ seq, p ∉ st.stack := by
    by_contra hno
    apply hun
    intro b hb
    obtain ⟨p, hp⟩ := List.mem_iff_getElem?.mp hb
    have hlen : p < s.max.length := by
      rw [← hI.finish_len]; exact (List.getElem?_eq_some.mp hp).1
    have hmem : p ∈ seq := hperm.mem_iff.mpr (List.mem_range.mpr hlen)
    have hst : p ∈ st.stack := by
      by_contra hns
      exact hno ⟨p, hmem, hns⟩
    have := (hI.mem_iff p).mp hst
    rw [hp] at this
    exact Option.some.inj this
  obtain ⟨p, hp, hpf, hle⟩ := exists_grantable hs hnn st.stack hI.nodup
    (fun p hp => stack_lt hI hp) seq [] (by simpa using hperm.nodup_iff.mpr (List.nodup_range _))
    (fun p hp => List.mem_range.mp (hperm.mem_iff.mp (by simpa using hp)))
    (fun p hp => absurd hp (List.not_mem_nil p)) (by simpa [workAfter] using hrep) hex
  obtain ⟨r, hr, hgt⟩ := hstuck p (finish_false_of_not_mem hI hp hpf)
  have := hle r hr
  rw [← hI.work_eq] at this
  omega

theorem find_eq_verdict {s : OS} {st : Search} (h : findSearch s = .ok st) :
    find s = .ok (verdict st) := by
  simp [find, h]

/-! ## The safety search: claims about `find` -/

theorem set_eq_self {α : Type} (l : List α) (i : Nat) (a : α) (h : l[i]? = some a) :
    l.set i a = l := by
  induction l generalizing i with
  | nil => simp
  | cons x l ih =>
    cases i with
    | zero =>
      simp at h
      simp [h]
    | succ i => simp [ih i (by simpa using h)]

theorem cell_set (M : List (List Int)) (pid : Nat) (row : List Int) (p r : Nat)
    (h : pid < M.length) :
    cell (M.set pid row) p r = if p = pid then row.getD r 0 else cell M p r := by
  unfold cell
  simp only [List.getD_eq_getElem?_getD, List.getElem?_set]
  by_cases hp : pid = p
  · subst hp
    simp [h]
  · have hp' : ¬ p = pid := fun e => hp e.symm
    simp [hp, hp']

theorem getD_zipWith_sub (a b : List Int) (r : Nat) (h : a.length = b.length) :
    (List.zipWith (· - ·) a b).getD r 0 = a.getD r 0 - b.getD r 0 := by
  induction a generalizing b r with
  | nil =>
    cases b with
    | nil => simp
    | cons y b => simp at h
  | cons x a ih =>
    cases b with
    | nil => simp at h
    | cons y b =>
      cases r with
      | zero => simp
      | succ r => simpa using ih b r (by simpa using h)

theorem getD_replicate_zero (m r : Nat) : (List.replicate m (0 : Int)).getD r 0 = 0 := by
  simp only [List.getD_eq_getElem?_getD, List.getElem?_replicate]
  split <;> rfl

theorem addReq_ok (row req : List Int) (h : req.length = row.length) :
    addReq row req = .ok (List.zipWith (· + ·) row req) := by
  induction row generalizing req with
  | nil =>
    cases req with
    | nil => rfl
    | cons q req => simp at h
  | cons a row ih =>
    cases req with
    | nil => simp at h
    | cons q req =>
      have := ih req (by simpa using h)
      simp [addReq, this]

theorem subReq_ok (row req : List Int) (h : req.length = row.length) :
    subReq row req = .ok (List.zipWith (· - ·) row req) := by
  induction row generalizing req with
  | nil =>
    cases req with
    | nil => rfl
    | cons q req => simp at h
  | cons a row ih =>
    cases req with
    | nil => simp at h
    | cons q req =>
      have := ih req (by simpa using h)
      simp [subReq, this]

theorem zipWith_add_sub (row req : List Int) (h : req.length = row.length) :
    List.zipWith (· - ·) (List.zipWith (· + ·) row req) req = row := by
  induction row generalizing req with
  | nil => simp
  | cons a row ih =>
    cases req with
    | nil => simp at h
    | cons q req => simp [ih req (by simpa using h)]

theorem zipWith_sub_add (row req : List Int) (h : req.length = row.length) :
    List.zipWith (· + ·) (List.zipWith (· - ·) row req) req = row := by
  induction row generalizing req with
  | nil => simp
  | cons a row ih =>
    cases req with
    | nil => simp at h
    | cons q req => simp [ih req (by simpa using h)]

theorem checkLoop_pass_iff (req needRow avail : List Int) (h1 : needRow.length = req.length)
    (h2 : avail.length = req.length) :
    checkLoop req needRow avail = .pass ↔
      ∀ r, r < req.length →
        req.getD r 0 ≤ needRow.getD r 0 ∧ req.getD r 0 ≤ avail.getD r 0 := by
  induction req generalizing needRow avail with
  | nil => simp [checkLoop]
  | cons q req ih =>
    cases needRow with
    | nil => simp at h1
    | cons x needRow =>
      cases avail with
      | nil => simp at h2
      | cons c avail =>
        have ih' := ih needRow avail (by simpa using h1) (by simpa using h2)
        simp only [checkLoop, List.head?_cons, jsGt, List.tail_cons]
        by_cases hx : q > x
        · simp only [hx, decide_True, if_true]
          constructor
          · intro h; exact Check.noConfusion h
          · intro h
            have := (h 0 (by simp)).1
            simp at this
            omega
        · by_cases hc : q > c
          · simp only [hx, hc, decide_True, decide_False, Bool.false_eq_true, if_true, if_false]
            constructor
            · intro h; exact Check.noConfusion h
            · intro h
              have := (h 0 (by simp)).2
              simp at this
              omega
          · simp only [hx, hc, decide_False, Bool.false_eq_true, if_false]
            rw [ih']
            constructor
            · intro h r hr
              cases r with
              | zero => simp; omega
              | succ r => simpa using h r (by simpa using hr)
            · intro h r hr
              simpa using h (r + 1) (by simpa using hr)

theorem checkLoop_mustWait (req needRow avail : List Int) (h1 : needRow.length = req.length)
    (h2 : avail.length = req.length)
    (hneed : ∀ r, r < req.length → req.getD r 0 ≤ needRow.getD r 0)
    (hav : ∃ r, r < req.length ∧ avail.getD r 0 < req.getD r 0) :
    checkLoop req needRow avail = .mustWait := by
  induction req generalizing needRow avail with
  | nil =>
    obtain ⟨r, hr, -⟩ := hav
    simp at hr
  | cons q req ih =>
    cases needRow with
    | nil => simp at h1
    | cons x needRow =>
      cases avail with
      | nil => simp at h2
      | cons c avail =>
        have hx : ¬ q > x := by
          have := hneed 0 (by simp)
          simp at this
          omega
        simp only [checkLoop, List.head?_cons, jsGt, List.tail_cons]
        by_cases hc : q > c
        · simp [hx, hc]
        · simp only [hx, hc, decide_False, Bool.false_eq_true, if_false]
          refine ih needRow avail (by simpa using h1) (by simpa using h2)
            (fun r hr => by simpa using hneed (r + 1) (by simpa using hr)) ?_
          obtain ⟨r, hr, hlt⟩ := hav
          cases r with
          | zero => simp at hlt; omega
          | succ r => exact ⟨r, by simpa using hr, by simpa using hlt⟩

/-! ## `request` and `release` on well-shaped states -/

theorem requestCheck_eq {s : OS} {pid : Nat} {req needRow : List Int}
    (h : s.need[pid]? = some needRow) :
    requestCheck s pid req = .ok (checkLoop req needRow s.available) := by
  cases req with
  | nil => rfl
  | cons q req => simp [requestCheck, h]

theorem tentativeState_nil {s : OS} (hs : WellShaped s) {pid : Nat}
    (hm : s.available.length = 0) : tentativeState s pid [] = s := by
  obtain ⟨-, -, -, har, hnr⟩ := hs
  have hav : s.available = [] := List.length_eq_zero.mp hm
  have hset : ∀ M : List (List Int), (∀ row ∈ M, row.length = s.available.length) →
      M.set pid [] = M := by
    intro M hM
    by_cases hp : pid < M.length
    · obtain ⟨row, hrow⟩ := row_exists _ _ hp
      have : row = [] := List.length_eq_zero.mp (by rw [row_length hM hrow, hm])
      exact set_eq_self M pid [] (by rw [hrow, this])
    · exact List.set_eq_of_length_le (not_lt.mp hp)
  cases s with
  | mk available max alloc need =>
    simp only [tentativeState, List.zipWith_nil_right] at *
    rw [hset alloc har, hset need hnr, hav]

theorem set_rows_length (M : List (List Int)) (m pid : Nat) (new : List Int)
    (hM : ∀ row ∈ M, row.length = m) (hnew : pid < M.length → new.length = m) :
    ∀ row ∈ M.set pid new, row.length = m := by
  intro row hrow
  by_cases hp : pid < M.length
  · rcases List.mem_or_eq_of_mem_set hrow with h | h
    · exact hM row h
    · rw [h]; exact hnew hp
  · rw [List.set_eq_of_length_le (not_lt.mp hp)] at hrow
    exact hM row hrow

theorem getD_row_length {M : List (List Int)} {m pid : Nat}
    (hM : ∀ row ∈ M, row.length = m) (hp : pid < M.length) : (M.getD pid []).length = m := by
  obtain ⟨row, hrow⟩ := row_exists _ _ hp
  rw [getElem?_getD_row hrow]
  exact row_length hM hrow

theorem tentativeState_shape {s : OS} (hs : WellShaped s) (pid : Nat) {req : List Int}
    (hr : req.length = s.available.length) : WellShaped (tentativeState s pid req) := by
  obtain ⟨hal, hnl, hmr, har, hnr⟩ := hs
  have hm : (List.zipWith (· - ·) s.available req).length = s.available.length := by
    simp [hr]
  refine ⟨by simp [tentativeState, hal], by simp [tentativeState, hnl], ?_, ?_, ?_⟩
  · intro row hrow
    show row.length = (List.zipWith (· - ·) s.available req).length
    rw [hm]; exact hmr row hrow
  · show ∀ row ∈ s.alloc.set pid _, row.length = (List.zipWith (· - ·) s.available req).length
    rw [hm]
    refine set_rows_length _ _ _ _ har (fun hp => ?_)
    rw [List.length_zipWith, getD_row_length har hp, hr, min_self]
  · show ∀ row ∈ s.need.set pid _, row.length = (List.zipWith (· - ·) s.available req).length
    rw [hm]
    refine set_rows_length _ _ _ _ hnr (fun hp => ?_)
    rw [List.length_zipWith, getD_row_length hnr hp, hr, min_self]

theorem grant_eq {s : OS} (hs : WellShaped s) {pid : Nat} (hp : pid < s.max.length)
    {req : List Int} (hr : req.length = s.available.length) :
    grant s pid req = .ok (tentativeState s pid req) := by
  cases req with
  | nil => rw [tentativeState_nil hs (by simpa using hr.symm)]; rfl
  | cons q req =>
    obtain ⟨hal, hnl, -, har, hnr⟩ := hs
    obtain ⟨allocRow, halloc⟩ := row_exists s.alloc pid (by omega)
    obtain ⟨needRow, hneed⟩ := row_exists s.need pid (by omega)
    simp only [grant, halloc, hneed,
      addReq_ok allocRow (q :: req) (by rw [hr, row_length har halloc]),
      subReq_ok s.available (q :: req) hr,
      subReq_ok needRow (q :: req) (by rw [hr, row_length hnr hneed]),
      tentativeState, getElem?_getD_row halloc, getElem?_getD_row hneed]

theorem rollback_eq {s : OS} (hs : WellShaped s) {pid : Nat} (hp : pid < s.max.length)
    {req : List Int} (hr : req.length = s.available.length) :
    rollback (tentativeState s pid req) pid req = .ok s := by
  cases req with
  | nil => rw [tentativeState_nil hs (by simpa using hr.symm)]; rfl
  | cons q req =>
    obtain ⟨hal, hnl, -, har, hnr⟩ := hs
    obtain ⟨allocRow, halloc⟩ := row_exists s.alloc pid (by omega)
    obtain ⟨needRow, hneed⟩ := row_exists s.need pid (by omega)
    have hla := row_length har halloc
    have hln := row_length hnr hneed
    have h1 : (tentativeState s pid (q :: req)).alloc[pid]? =
        some (List.zipWith (· + ·) allocRow (q :: req)) := by
      simp only [tentativeState, getElem?_getD_row halloc]
      exact List.getElem?_set_self (by omega)
    have h2 : (tentativeState s pid (q :: req)).need[pid]? =
        some (List.zipWith (· - ·) needRow (q :: req)) := by
      simp only [tentativeState, getElem?_getD_row hneed]
      exact List.getElem?_set_self (by omega)
    have h3 : (tentativeState s pid (q :: req)).available =
        List.zipWith (· - ·) s.available (q :: req) := rfl
    simp only [rollback, h1, h2, h3]
    rw [subReq_ok _ _ (by simp [hr, hla]), addReq_ok _ _ (by simp [hr]),
      addReq_ok _ _ (by simp [hr, hln]), zipWith_add_sub _ _ (by rw [hr, hla]),
      zipWith_sub_add _ _ hr, zipWith_sub_add _ _ (by rw [hr, hln])]
    cases s with
    | mk available max alloc need =>
      simp only [tentativeState, List.set_set]
      rw [set_eq_self alloc pid allocRow halloc, set_eq_self need pid needRow hneed]

theorem find_total {s : OS} (hs : WellShaped s) : ∃ res, find s = .ok res := by
  obtain ⟨st, hrun, -, -⟩ := findSearch_spec hs
  exact ⟨verdict st, find_eq_verdict hrun⟩

theorem request_cases {s : OS} (hs : WellShaped s) {pid : Nat} (hp : pid < s.max.length)
    {req : List Int} (hr : req.length = s.available.length) :
    (requestCheck s pid req = .ok .exceedsNeed ∧
      request s pid req = .ok ({ isSafe := false, stack := [] }, s)) ∨
    (requestCheck s pid req = .ok .mustWait ∧
      request s pid req = .ok ({ isSafe := true, stack := [] }, s)) ∨
    (requestCheck s pid req = .ok .pass ∧
      (∀ r, r < s.available.length →
        req.getD r 0 ≤ cell s.need pid r ∧ req.getD r 0 ≤ s.available.getD r 0) ∧
      ∃ res, find (tentativeState s pid req) = .ok res ∧
        request s pid req =
          .ok (res, if res.isSafe = true then tentativeState s pid req else s)) := by
  obtain ⟨needRow, hneed⟩ := row_exists s.need pid (by rw [hs.2.1]; exact hp)
  have hln := row_length hs.2.2.2.2 hneed
  have hchk : requestCheck s pid req = .ok (checkLoop req needRow s.available) :=
    requestCheck_eq hneed
  cases hc : checkLoop req needRow s.available with
  | exceedsNeed =>
    rw [hc] at hchk
    exact Or.inl ⟨hchk, by simp [request, hchk]⟩
  | mustWait =>
    rw [hc] at hchk
    exact Or.inr (Or.inl ⟨hchk, by simp [request, hchk]⟩)
  | pass =>
    rw [hc] at hchk
    have hle := (checkLoop_pass_iff req needRow s.available (by rw [hln, hr]) hr.symm).mp hc
    obtain ⟨res, hres⟩ := find_total (tentativeState_shape hs pid hr)
    refine Or.inr (Or.inr ⟨hchk, fun r hlt => ?_, res, hres, ?_⟩)
    · rw [cell_of_row hneed]
      exact hle r (by rw [hr]; exact hlt)
    · cases hsafe : res.isSafe with
      | true => simp [request, hchk, grant_eq hs hp hr, hres, hsafe]
      | false => simp [request, hchk, grant_eq hs hp hr, hres, hsafe, rollback_eq hs hp hr]

theorem release_eq {s : OS} (hs : WellShaped s) {pid : Nat} (hp : pid < s.max.length) :
    release s pid = .ok (releasedState s pid) := by
  obtain ⟨hal, hnl, -, har, hnr⟩ := hs
  obtain ⟨allocRow, halloc⟩ := row_exists s.alloc pid (by omega)
  obtain ⟨needRow, hneed⟩ := row_exists s.need pid (by omega)
  have hla := row_length har halloc
  have hln := row_length hnr hneed
  cases s with
  | mk available max alloc need =>
    cases available with
    | nil =>
      have ha : allocRow = [] := List.length_eq_zero.mp (by simpa using hla)
      have hn : needRow = [] := List.length_eq_zero.mp (by simpa using hln)
      subst ha hn
      simp only [release, releasedState, List.zipWith_nil_left, List.length_nil,
        List.replicate_zero]
      rw [set_eq_self alloc pid [] halloc, set_eq_self need pid [] hneed]
    | cons c available =>
      simp only at halloc hneed hla hln
      simp only [release, halloc, hneed, releasedState, getElem?_getD_row halloc,
        addRow_ok (c :: available) allocRow (le_of_eq hla.symm),
        List.drop_of_length_le (le_of_eq hla), List.drop_of_length_le (le_of_eq hln),
        List.append_nil]

/-! ## Entries of the tentative and the released state -/

theorem tentative_available_getD {s : OS} (pid : Nat) {req : List Int}
    (hr : req.length = s.available.length) (r : Nat) :
    (tentativeState s pid req).available.getD r 0 = s.available.getD r 0 - req.getD r 0 :=
  getD_zipWith_sub s.available req r hr.symm

theorem tentative_available_length {s : OS} (pid : Nat) {req : List Int}
    (hr : req.length = s.available.length) :
    (tentativeState s pid req).available.length = s.available.length := by
  simp [tentativeState, hr]

theorem tentative_alloc_cell {s : OS} (hs : WellShaped s) {pid : Nat}
    (hp : pid < s.max.length) {req : List Int} (hr : req.length = s.available.length)
    (p r : Nat) :
    cell (tentativeState s pid req).alloc p r =
      if p = pid then cell s.alloc pid r + req.getD r 0 else cell s.alloc p r := by
  have hlen : pid < s.alloc.length := by rw [hs.1]; exact hp
  show cell (s.alloc.set pid _) p r = _
  rw [cell_set _ _ _ _ _ hlen, getD_zipWith_add _ _ _ (by rw [getD_row_length hs.2.2.2.1 hlen, hr])]
  rfl

theorem tentative_need_cell {s : OS} (hs : WellShaped s) {pid : Nat}
    (hp : pid < s.max.length) {req : List Int} (hr : req.length = s.available.length)
    (p r : Nat) :
    cell (tentativeState s pid req).need p r =
      if p = pid then cell s.need pid r - req.getD r 0 else cell s.need p r := by
  have hlen : pid < s.need.length := by rw [hs.2.1]; exact hp
  show cell (s.need.set pid _) p r = _
  rw [cell_set _ _ _ _ _ hlen, getD_zipWith_sub _ _ _ (by rw [getD_row_length hs.2.2.2.2 hlen, hr])]
  rfl

theorem released_available_getD {s : OS} (hs : WellShaped s) {pid : Nat}
    (hp : pid < s.max.length) (r : Nat) :
    (releasedState s pid).available.getD r 0 = s.available.getD r 0 + cell s.alloc pid r := by
  have hlen : pid < s.alloc.length := by rw [hs.1]; exact hp
  exact getD_zipWith_add _ _ _ (getD_row_length hs.2.2.2.1 hlen).symm

theorem released_available_length {s : OS} (hs : WellShaped s) {pid : Nat}
    (hp : pid < s.max.length) :
    (releasedState s pid).available.length = s.available.length := by
  have hlen : pid < s.alloc.length := by rw [hs.1]; exact hp
  show (List.zipWith (· + ·) s.available (s.alloc.getD pid [])).length = _
  rw [List.length_zipWith, getD_row_length hs.2.2.2.1 hlen, min_self]

theorem released_alloc_cell {s : OS} (hs : WellShaped s) {pid : Nat}
    (hp : pid < s.max.length) (p r : Nat) :
    cell (releasedState s pid).alloc p r = if p = pid then 0 else cell s.alloc p r := by
  have hlen : pid < s.alloc.length := by rw [hs.1]; exact hp
  show cell (s.alloc.set pid _) p r = _
  rw [cell_set _ _ _ _ _ hlen, getD_replicate_zero]

theorem released_need_cell {s : OS} (hs : WellShaped s) {pid : Nat}
    (hp : pid < s.max.length) (p r : Nat) :
    cell (releasedState s pid).need p r = if p = pid then 0 else cell s.need p r := by
  have hlen : pid < s.need.length := by rw [hs.2.1]; exact hp
  show cell (s.need.set pid _) p r = _
  rw [cell_set _ _ _ _ _ hlen, getD_replicate_zero]

theorem sum_map_set (M : List (List Int)) (f : List Int → Int) (pid : Nat)
    (old new : List Int) (h : M[pid]? = some old) :
    ((M.set pid new).map f).sum = (M.map f).sum - f old + f new := by
  induction M generalizing pid with
  | nil => simp at h
  | cons x M ih =>
    cases pid with
    | zero =>
      simp at h
      subst h
      simp only [List.set_cons_zero, List.map_cons, List.sum_cons]
      ring
    | succ pid =>
      have := ih pid (by simpa using h)
      simp only [List.set_cons_succ, List.map_cons, List.sum_cons, this]
      ring

theorem tentative_total {s : OS} (hs : WellShaped s) {pid : Nat}
    (hp : pid < s.max.length) {req : List Int} (hr : req.length = s.available.length)
    (r : Nat) : total (tentativeState s pid req) r = total s r := by
  obtain ⟨row, hrow⟩ := row_exists s.alloc pid (by rw [hs.1]; exact hp)
  unfold total
  rw [tentative_available_getD pid hr]
  show _ + ((s.alloc.set pid _).map _).sum = _
  rw [sum_map_set s.alloc (fun row => row.getD r 0) pid row _ hrow, getElem?_getD_row hrow]
  rw [getD_zipWith_add _ _ _ (by rw [row_length hs.2.2.2.1 hrow, hr])]
  ring

theorem released_total {s : OS} (hs : WellShaped s) {pid : Nat}
    (hp : pid < s.max.length) (r : Nat) : total (releasedState s pid) r = total s r := by
  obtain ⟨row, hrow⟩ := row_exists s.alloc pid (by rw [hs.1]; exact hp)
  unfold total
  rw [released_available_getD hs hp, cell_of_row hrow]
  show _ + ((s.alloc.set pid _).map _).sum = _
  rw [sum_map_set s.alloc (fun row => row.getD r 0) pid row _ hrow]
  rw [getD_replicate_zero]
  ring

/-! ## Invariants of the tentative and the released state -/

theorem tentative_inv1 {s : OS} (hs : WellShaped s) {pid : Nat} (hp : pid < s.max.length)
    {req : List Int} (hr : req.length = s.available.length) (hinv : Inv1 s) :
    Inv1 (tentativeState s pid req) := by
  intro p hpn r hrm
  rw [tentative_available_length pid hr] at hrm
  rw [tentative_alloc_cell hs hp hr, tentative_need_cell hs hp hr]
  show _ = cell s.max p r
  have := hinv p hpn r hrm
  by_cases hpp : p = pid
  · subst hpp
    simp only [if_true]
    linarith
  · simp only [if_neg hpp]
    exact this

theorem tentative_nonNeg {s : OS} (hs : WellShaped s) {pid : Nat}
    (hp : pid < s.max.length) {req : List Int} (hr : req.length = s.available.length)
    (hnn : NonNeg s) (hreq : ∀ r, r < s.available.length → 0 ≤ req.getD r 0)
    (hle : ∀ r, r < s.available.length →
      req.getD r 0 ≤ cell s.need pid r ∧ req.getD r 0 ≤ s.available.getD r 0) :
    NonNeg (tentativeState s pid req) := by
  constructor
  · intro r hrm
    rw [tentative_available_length pid hr] at hrm
    rw [tentative_available_getD pid hr]
    have := (hle r hrm).2
    linarith
  · intro p hpn r hrm
    rw [tentative_available_length pid hr] at hrm
    rw [tentative_alloc_cell hs hp hr, tentative_need_cell hs hp hr]
    have h1 := hnn.2 p hpn r hrm
    have h2 := hreq r hrm
    have h3 := (hle r hrm).1
    by_cases hpp : p = pid
    · subst hpp
      simp only [if_true]
      constructor <;> linarith
    · simp only [if_neg hpp]
      exact h1

theorem released_nonNeg {s : OS} (hs : WellShaped s) {pid : Nat}
    (hp : pid < s.max.length) (hnn : NonNeg s) : NonNeg (releasedState s pid) := by
  constructor
  · intro r hrm
    rw [released_available_length hs hp] at hrm
    rw [released_available_getD hs hp]
    have h1 := hnn.1 r hrm
    have h2 := (hnn.2 pid hp r hrm).1
    linarith
  · intro p hpn r hrm
    rw [released_available_length hs hp] at hrm
    rw [released_alloc_cell hs hp, released_need_cell hs hp]
    have h1 := hnn.2 p hpn r hrm
    by_cases hpp : p = pid
    · simp [hpp]
    · simp only [if_neg hpp]
      exact h1

/-! ## Claims about `request` and `release` -/

/-- C5: if `request(pid, req)` ends its first loop with the ExceedsDeclaredNeed
outcome or with the InsufficientAvailable (must wait) outcome, it returns and
the state after the call, `Available`, `Alloc`, `Need` and `Max`, is the state
before the call. -/
theorem request_rejected_unchanged (s : OS) (pid : Nat) (req : List Int) (c : Check)
    (hc : requestCheck s pid req = .ok c) (hne : c = .exceedsNeed ∨ c = .mustWait) :
    ∃ res, request s pid req = .ok (res, s) := by
  rcases hne with h | h
  · subst h
    exact ⟨{ isSafe := false, stack := [] }, by simp [request, hc]⟩
  · subst h
    exact ⟨{ isSafe := true, stack := [] }, by simp [request, hc]⟩

/-- Witness for C5: one request beyond the declared need and one request beyond
the available units, both on the `factory` state. -/
theorem request_rejected_unchanged_witness :
    (requestCheck factory 0 [8, 0, 0] = .ok .exceedsNeed ∧
      ∃ res, request factory 0 [8, 0, 0] = .ok (res, factory)) ∧
    (requestCheck factory 0 [4, 0, 0] = .ok .mustWait ∧
      ∃ res, request factory 0 [4, 0, 0] = .ok (res, factory)) :=
  ⟨⟨by decide, request_rejected_unchanged factory 0 [8, 0, 0] .exceedsNeed (by decide)
      (Or.inl rfl)⟩,
   ⟨by decide, request_rejected_unchanged factory 0 [4, 0, 0] .mustWait (by decide)
      (Or.inr rfl)⟩⟩

/-- C6 (failing input): on the `factory` state the request of process 0 for
`[4, 5, 0]` exceeds `Need[0][1] = 4`, yet the scan stops at resource type 0,
where `4 > Available[0] = 3`, and returns the must-wait result
(`isSafe = true`, empty sequence) instead of the ExceedsDeclaredNeed result. -/
theorem request_need_excess_answered_wait :
    cell factory.need 0 1 < ([4, 5, 0] : List Int).getD 1 0 ∧
      requestCheck factory 0 [4, 5, 0] = .ok .mustWait ∧
      request factory 0 [4, 5, 0] = .ok ({ isSafe := true, stack := [] }, factory) := by
  decide

/-- C7: for a valid `pid` and a request vector of length `m` with
`req[r] <= Need[pid][r]` for every `r`, if `req[r] > Available[r]` for some `r`
then `request(pid, req)` ends at the availability test and returns the
must-wait result (`isSafe = true`, empty sequence) with the state untouched:
the tentative grant is never applied. -/
theorem request_must_wait (s : OS) (pid : Nat) (req : List Int) (hs : WellShaped s)
    (hp : pid < s.max.length) (hr : req.length = s.available.length)
    (hneed : ∀ r, r < s.available.length → req.getD r 0 ≤ cell s.need pid r)
    (hav : ∃ r, r < s.available.length ∧ s.available.getD r 0 < req.getD r 0) :
    requestCheck s pid req = .ok .mustWait ∧
      request s pid req = .ok ({ isSafe := true, stack := [] }, s) := by
  obtain ⟨needRow, hrow⟩ := row_exists s.need pid (by rw [hs.2.1]; exact hp)
  have hwait : requestCheck s pid req = .ok .mustWait := by
    rw [requestCheck_eq hrow,
      checkLoop_mustWait req needRow s.available
        (by rw [row_length hs.2.2.2.2 hrow, hr]) hr.symm
        (fun r hlt => by rw [← cell_of_row hrow]; exact hneed r (by rw [← hr]; exact hlt))
        (by rw [hr]; exact hav)]
  exact ⟨hwait, by simp [request, hwait]⟩

/-- Witness for C7: `request({ pid: 4, req: [3, 3, 0] })` after the grant to
process 1 (line 166 of `main`). -/
theorem request_must_wait_witness :
    WellShaped factoryAfterGrant ∧ 4 < factoryAfterGrant.max.length ∧
      ([3, 3, 0] : List Int).length = factoryAfterGrant.available.length ∧
      (∀ r, r < factoryAfterGrant.available.length →
        ([3, 3, 0] : List Int).getD r 0 ≤ cell factoryAfterGrant.need 4 r) ∧
      (∃ r, r < factoryAfterGrant.available.length ∧
        factoryAfterGrant.available.getD r 0 < ([3, 3, 0] : List Int).getD r 0) ∧
      requestCheck factoryAfterGrant 4 [3, 3, 0] = .ok .mustWait ∧
      request factoryAfterGrant 4 [3, 3, 0] =
        .ok ({ isSafe := true, stack := [] }, factoryAfterGrant) :=
  ⟨by decide, by decide, by decide, by decide, ⟨0, by decide, by decide⟩,
    request_must_wait factoryAfterGrant 4 [3, 3, 0] (by decide) (by decide) (by decide)
      (by decide) ⟨0, by decide, by decide⟩⟩

/-- After `request` the state is the state before the call or the tentative
state, and it is the tentative state only when both checks passed. -/
theorem request_state_cases {s : OS} (hs : WellShaped s) {pid : Nat}
    (hp : pid < s.max.length) {req : List Int} (hr : req.length = s.available.length) :
    ∃ res s', request s pid req = .ok (res, s') ∧
      (s' = s ∨
        (s' = tentativeState s pid req ∧
          ∀ r, r < s.available.length →
            req.getD r 0 ≤ cell s.need pid r ∧ req.getD r 0 ≤ s.available.getD r 0)) := by
  rcases request_cases hs hp hr with ⟨-, h⟩ | ⟨-, h⟩ | ⟨-, hle, res, -, h⟩
  · exact ⟨_, _, h, Or.inl rfl⟩
  · exact ⟨_, _, h, Or.inl rfl⟩
  · refine ⟨_, _, h, ?_⟩
    by_cases hsafe : res.isSafe = true
    · rw [if_pos hsafe]; exact Or.inr ⟨rfl, hle⟩
    · rw [if_neg hsafe]; exact Or.inl rfl

/-- C10: non-negativity.  On a state whose entries of `Alloc`, `Need` and
`Available` are all `>= 0`, for a valid `pid` and a request vector of length `m`
with non-negative entries, both `request(pid, req)` (whatever its outcome) and
`release(pid)` return, and all entries of `Alloc`, `Need` and `Available` are
still `>= 0` afterwards. -/
theorem nonNeg_preserved (s : OS) (pid : Nat) (req : List Int) (hs : WellShaped s)
    (hp : pid < s.max.length) (hr : req.length = s.available.length) (hnn : NonNeg s)
    (hreq : ∀ r, r < s.available.length → 0 ≤ req.getD r 0) :
    (∃ res s', request s pid req = .ok (res, s') ∧ NonNeg s') ∧
    (∃ s', release s pid = .ok s' ∧ NonNeg s') := by
  constructor
  · obtain ⟨res, s', hcall, hcase⟩ := request_state_cases hs hp hr
    refine ⟨res, s', hcall, ?_⟩
    rcases hcase with h | ⟨h, hle⟩
    · rw [h]; exact hnn
    · rw [h]; exact tentative_nonNeg hs hp hr hnn hreq hle
  · exact ⟨releasedState s pid, release_eq hs hp, released_nonNeg hs hp hnn⟩

/-- Witness for C10: the `factory` state, process 1, request `[1, 0, 2]`. -/
theorem nonNeg_preserved_witness :
    WellShaped factory ∧ 1 < factory.max.length ∧
      ([1, 0, 2] : List Int).length = factory.available.length ∧ NonNeg factory ∧
      (∀ r, r < factory.available.length → 0 ≤ ([1, 0, 2] : List Int).getD r 0) ∧
      (∃ res s', request factory 1 [1, 0, 2] = .ok (res, s') ∧ NonNeg s') ∧
      (∃ s', release factory 1 = .ok s' ∧ NonNeg s') :=
  ⟨by decide, by decide, by decide, by decide, by decide,
    nonNeg_preserved factory 1 [1, 0, 2] (by decide) (by decide) (by decide) (by decide)
      (by decide)⟩

/-! ## `release`: frame and idempotence -/

theorem zipWith_add_replicate_zero (a : List Int) (k : Nat) (h : a.length ≤ k) :
    List.zipWith (· + ·) a (List.replicate k 0) = a := by
  induction a generalizing k with
  | nil => simp
  | cons x a ih =>
    cases k with
    | zero => simp at h
    | succ k => simp [List.replicate_succ, ih k (by simpa using h)]

theorem releasedState_shape {s : OS} (hs : WellShaped s) {pid : Nat}
    (hp : pid < s.max.length) : WellShaped (releasedState s pid) := by
  obtain ⟨hal, hnl, hmr, har, hnr⟩ := hs
  have hm : (releasedState s pid).available.length = s.available.length :=
    released_available_length ⟨hal, hnl, hmr, har, hnr⟩ hp
  refine ⟨by simp [releasedState, hal], by simp [releasedState, hnl], ?_, ?_, ?_⟩
  · intro row hrow
    rw [hm]; exact hmr row hrow
  · rw [hm]
    exact set_rows_length _ _ _ _ har (fun _ => List.length_replicate _ _)
  · rw [hm]
    exact set_rows_length _ _ _ _ hnr (fun _ => List.length_replicate _ _)

theorem releasedState_twice {s : OS} (hs : WellShaped s) {pid : Nat}
    (hp : pid < s.max.length) :
    releasedState (releasedState s pid) pid = releasedState s pid := by
  have hm : (releasedState s pid).available.length = s.available.length :=
    released_available_length hs hp
  have hlen : pid < s.alloc.length := by rw [hs.1]; exact hp
  have hrow : (releasedState s pid).alloc.getD pid [] =
      List.replicate s.available.length 0 :=
    getElem?_getD_row (List.getElem?_set_self hlen)
  have hav : List.zipWith (· + ·) (releasedState s pid).available
      ((releasedState s pid).alloc.getD pid []) = (releasedState s pid).available := by
    rw [hrow]
    exact zipWith_add_replicate_zero _ _ (le_of_eq hm)
  show ({ available := List.zipWith (· + ·) (releasedState s pid).available
            ((releasedState s pid).alloc.getD pid [])
          max := s.max
          alloc := (s.alloc.set pid (List.replicate s.available.length 0)).set pid
            (List.replicate (releasedState s pid).available.length 0)
          need := (s.need.set pid (List.replicate s.available.length 0)).set pid
            (List.replicate (releasedState s pid).available.length 0) } : OS) = _
  rw [hav, hm, List.set_set, List.set_set]
  rfl

/-- C12: `release` is idempotent: for a valid `pid`, `release(pid)` returns a
state on which a second `release(pid)` returns that same state. -/
theorem release_idempotent (s : OS) (pid : Nat) (hs : WellShaped s)
    (hp : pid < s.max.length) :
    ∃ s', release s pid = .ok s' ∧ release s' pid = .ok s' := by
  refine ⟨releasedState s pid, release_eq hs hp, ?_⟩
  have h := release_eq (releasedState_shape hs hp) (show pid < (releasedState s pid).max.length from hp)
  rw [h, releasedState_twice hs hp]

/-- Witness for C12: `release(4)` twice on the `factory` state. -/
theorem release_idempotent_witness :
    WellShaped factory ∧ 4 < factory.max.length ∧
      ∃ s', release factory 4 = .ok s' ∧ release s' 4 = .ok s' :=
  ⟨by decide, by decide, release_idempotent factory 4 (by decide) (by decide)⟩

/-! ## Termination of `find` on every state -/

theorem needExceeds_fault {s : OS} {work : List Int} {pid : Nat} {f : Fault}
    (h : needExceeds s work pid = .fault f) : f = .typeError := by
  unfold needExceeds at h
  split at h
  · cases h
  · split at h
    · cases h; rfl
    · cases h

theorem addRow_fault {work row : List Int} {f : Fault}
    (h : addRow work row = .fault f) : f = .notANumber := by
  induction work generalizing row with
  | nil => simp [addRow] at h
  | cons c work ih =>
    cases row with
    | nil =>
      simp only [addRow] at h
      cases h; rfl
    | cons a row =>
      simp only [addRow] at h
      split at h
      · cases h
      · next g hg =>
        cases h
        exact ih hg

theorem addAlloc_fault {s : OS} {work : List Int} {pid : Nat} {f : Fault}
    (h : addAlloc s work pid = .fault f) : f ≠ .outOfFuel := by
  unfold addAlloc at h
  split at h
  · cases h
  · split at h
    · cases h; intro hh; cases hh
    · rw [addRow_fault h]; intro hh; cases hh

theorem visit_fault {s : OS} {st : Search} {pid : Nat} {f : Fault}
    (h : visit s st pid = .fault f) : f ≠ .outOfFuel := by
  unfold visit at h
  split at h
  · split at h
    · next g hg =>
      cases h
      rw [needExceeds_fault hg]; intro hh; cases hh
    · cases h
    · split at h
      · next g hg =>
        cases h
        exact addAlloc_fault hg
      · cases h
  · cases h

theorem visit_ok_cases {s : OS} {st st' : Search} {pid : Nat}
    (h : visit s st pid = .ok st') :
    st' = st ∨
      (st.finish[pid]? = some false ∧ st'.dispatchDetected = true ∧
        st'.finish = st.finish.set pid true ∧ st'.stack = st.stack ++ [pid]) := by
  unfold visit at h
  split at h
  · next hf =>
    split at h
    · cases h
    · cases h; exact Or.inl rfl
    · split at h
      · cases h
      · cases h
        exact Or.inr ⟨hf, rfl, rfl, rfl⟩
  · cases h; exact Or.inl rfl

theorem pass_fault {s : OS} {pids : List Nat} {st : Search} {f : Fault}
    (h : pass s st pids = .fault f) : f ≠ .outOfFuel := by
  induction pids generalizing st with
  | nil => simp [pass] at h
  | cons pid rest ih =>
    simp only [pass] at h
    split at h
    · next g hg =>
      cases h
      exact visit_fault hg
    · exact ih h

theorem pass_ok_cases {s : OS} {pids : List Nat} {st st' : Search}
    (h : pass s st pids = .ok st') :
    (st' = st ∨ (st'.dispatchDetected = true ∧ unfinished st'.finish < unfinished st.finish)) ∧
      st'.finish.length = st.finish.length ∧
      st'.stack.length + unfinished st'.finish = st.stack.length + unfinished st.finish ∧
      ∃ ext, st'.stack = st.stack ++ ext := by
  induction pids generalizing st with
  | nil =>
    simp only [pass] at h
    cases h
    exact ⟨Or.inl rfl, rfl, rfl, [], by simp⟩
  | cons pid rest ih =>
    simp only [pass] at h
    split at h
    · cases h
    · next st1 hv =>
      obtain ⟨hcase, hlen, hsum, ext, hext⟩ := ih h
      rcases visit_ok_cases hv with heq | ⟨hf, hd, hfin, hstack⟩
      · subst heq
        exact ⟨hcase, hlen, hsum, ext, hext⟩
      · have hun := unfinished_set st.finish pid hf
        rw [← hfin] at hun
        refine ⟨Or.inr ?_, ?_, ?_, [pid] ++ ext, ?_⟩
        · rcases hcase with heq | ⟨hd2, hlt⟩
          · rw [heq]; exact ⟨hd, by omega⟩
          · exact ⟨hd2, by omega⟩
        · rw [hlen, hfin, List.length_set]
        · rw [hsum, hstack, List.length_append, List.length_singleton]
          omega
        · rw [hext, hstack, List.append_assoc]

theorem findLoop_eq_dropPasses (s : OS) (fuel : Nat) (st : Search) :
    findLoop s fuel st = dropPasses (findLoopPasses s fuel st) := by
  induction fuel generalizing st with
  | zero =>
    rw [findLoop, findLoopPasses]
    split <;> rfl
  | succ fuel ih =>
    rw [findLoop, findLoopPasses]
    split
    · split
      · rfl
      · next st1 _ =>
        rw [ih st1]
        cases findLoopPasses s fuel st1 with
        | ok r => rfl
        | fault f => rfl
    · rfl

theorem findLoopPasses_exit (s : OS) (fuel : Nat) (st : Search)
    (h : st.dispatchDetected = false) : findLoopPasses s fuel st = .ok (st, 0) := by
  have hc : ¬ (st.dispatchDetected = true ∧ unfinished st.finish ≠ 0) := by
    rw [h]; simp
  cases fuel with
  | zero => rw [findLoopPasses, if_neg hc]
  | succ fuel => rw [findLoopPasses, if_neg hc]

theorem findLoopPasses_spec (s : OS) (fuel : Nat) (st : Search)
    (hfuel : st.dispatchDetected = true → unfinished st.finish ≤ fuel) :
    (∀ f, findLoopPasses s fuel st = .fault f → f ≠ .outOfFuel) ∧
    (∀ st' k, findLoopPasses s fuel st = .ok (st', k) →
      k ≤ unfinished st.finish ∧ k + unfinished st'.finish ≤ unfinished st.finish + 1 ∧
      st'.stack.length + unfinished st'.finish = st.stack.length + unfinished st.finish ∧
      ∃ ext, st'.stack = st.stack ++ ext) := by
  induction fuel generalizing st with
  | zero =>
    rw [findLoopPasses]
    split
    · next hc =>
      have := hfuel hc.1
      omega
    · refine ⟨fun f h => (by cases h), fun st' k h => ?_⟩
      cases h
      exact ⟨Nat.zero_le _, by omega, rfl, [], by simp⟩
  | succ fuel ih =>
    rw [findLoopPasses]
    split
    · next hc =>
      split
      · next f hf =>
        refine ⟨fun g h => ?_, fun st' k h => (by cases h)⟩
        cases h
        exact pass_fault hf
      · next st1 hp =>
        obtain ⟨hcase, -, hsum, ext, hext⟩ := pass_ok_cases hp
        have hbud : st1.dispatchDetected = true → unfinished st1.finish ≤ fuel := by
          intro hd
          rcases hcase with heq | ⟨-, hlt⟩
          · rw [heq] at hd; cases hd
          · have := hfuel hc.1
            have hlt' : unfinished st1.finish < unfinished st.finish := hlt
            omega
        obtain ⟨hfault, hok⟩ := ih st1 hbud
        have hle : unfinished st1.finish ≤ unfinished st.finish := by
          rcases hcase with heq | ⟨-, hlt⟩
          · rw [heq]
          · exact le_of_lt hlt
        refine ⟨fun g h => ?_, fun st' k h => ?_⟩
        · split at h
          · next g' hg =>
            cases h
            exact hfault _ hg
          · cases h
        · split at h
          · cases h
          · rename_i st2 k2 hrun
            have h1 : st2 = st' := (Prod.mk.inj (Exec.ok.inj h)).1
            have h2 : k2 + 1 = k := (Prod.mk.inj (Exec.ok.inj h)).2
            subst h1 h2
            obtain ⟨hk, hk2, hsum2, ext2, hext2⟩ := hok st2 k2 hrun
            have hsum' : st1.stack.length + unfinished st1.finish =
                st.stack.length + unfinished st.finish := hsum
            have hext' : st1.stack = st.stack ++ ext := hext
            refine ⟨?_, ?_, by rw [hsum2, hsum'], ext ++ ext2, by
              rw [hext2, hext', List.append_assoc]⟩
            · rcases hcase with heq | ⟨hd, hlt⟩
              · have hz : k2 = 0 := by
                  have hd1 : st1.dispatchDetected = false := by rw [heq]
                  rw [findLoopPasses_exit s fuel st1 hd1] at hrun
                  cases hrun
                  rfl
                omega
              · have hlt' : unfinished st1.finish < unfinished st.finish := hlt
                omega
            · rcases hcase with heq | ⟨hd, hlt⟩
              · have hd1 : st1.dispatchDetected = false := by rw [heq]
                rw [findLoopPasses_exit s fuel st1 hd1] at hrun
                cases hrun
                omega
              · have hlt' : unfinished st1.finish < unfinished st.finish := hlt
                omega
    · refine ⟨fun f h => (by cases h), fun st' k h => ?_⟩
      cases h
      exact ⟨Nat.zero_le _, by omega, rfl, [], by simp⟩

theorem findSearch_eq_dropPasses (s : OS) :
    findSearch s = dropPasses (findLoopPasses s s.max.length (initSearch s)) :=
  findLoop_eq_dropPasses s _ _

theorem dropPasses_ok {x : Exec (Search × Nat)} {st : Search} (h : dropPasses x = .ok st) :
    ∃ k, x = .ok (st, k) := by
  cases x with
  | ok r =>
    obtain ⟨st1, k⟩ := r
    simp only [dropPasses] at h
    cases h
    exact ⟨k, rfl⟩
  | fault f => simp [dropPasses] at h

/-- C13: `find` terminates on every state: the budget of `n = max.length`
passes is never exhausted.  Whenever the `while` loop runs to its end it has
executed at most `n` passes over the process list, and at most one more pass
than there are finished processes (every pass but the last marks at least one
new process finished).  On a state with `n` processes and `m` resource types
the loop does run to its end. -/
theorem find_terminates (s : OS) :
    find s ≠ .fault .outOfFuel ∧
    (∀ st k, findLoopPasses s s.max.length (initSearch s) = .ok (st, k) →
      find s = .ok (verdict st) ∧ k ≤ s.max.length ∧ k ≤ st.stack.length + 1) ∧
    (WellShaped s → ∃ st k, findLoopPasses s s.max.length (initSearch s) = .ok (st, k)) := by
  have hinit : unfinished (initSearch s).finish = s.max.length := unfinished_replicate _
  obtain ⟨hfault, hok⟩ := findLoopPasses_spec s s.max.length (initSearch s)
    (fun _ => le_of_eq hinit)
  refine ⟨fun h => ?_, fun st k hrun => ?_, fun hs => ?_⟩
  · have hfs : findSearch s = .fault .outOfFuel := by
      unfold find at h
      split at h
      · next f hf => cases h; exact hf
      · cases h
    rw [findSearch_eq_dropPasses] at hfs
    cases hrun : findLoopPasses s s.max.length (initSearch s) with
    | ok r =>
      rw [hrun] at hfs
      obtain ⟨st1, k⟩ := r
      simp [dropPasses] at hfs
    | fault f =>
      rw [hrun] at hfs
      simp only [dropPasses] at hfs
      cases hfs
      exact hfault _ hrun rfl
  · obtain ⟨hk, hk2, hsum, -⟩ := hok st k hrun
    have hstack : (initSearch s).stack.length = 0 := rfl
    refine ⟨find_eq_verdict ?_, by omega, by omega⟩
    rw [findSearch_eq_dropPasses, hrun]
    rfl
  · obtain ⟨st, hrun, -, -⟩ := findSearch_spec hs
    rw [findSearch_eq_dropPasses] at hrun
    obtain ⟨k, hk⟩ := dropPasses_ok hrun
    exact ⟨st, k, hk⟩

/-- Witness for C13: on the `factory` state the loop ends after two passes. -/
theorem find_terminates_witness :
    WellShaped factory ∧
      ∃ st k, findLoopPasses factory factory.max.length (initSearch factory) = .ok (st, k) ∧
        k = 2 ∧ find factory = .ok (verdict st) ∧ k ≤ factory.max.length ∧
        k ≤ st.stack.length + 1 := by
  refine ⟨by decide, ?_⟩
  obtain ⟨st, k, hrun⟩ := (find_terminates factory).2.2 (by decide)
  obtain ⟨h1, h2, h3⟩ := (find_terminates factory).2.1 st k hrun
  refine ⟨st, k, hrun, ?_, h1, h2, h3⟩
  have hdec : findLoopPasses factory factory.max.length (initSearch factory) =
      .ok ({ tempAvailable := [10, 5, 7], finish := [true, true, true, true, true],
             stack := [1, 3, 4, 0, 2], dispatchDetected := true }, 2) := by decide
  rw [hdec] at hrun
  exact (Prod.mk.inj (Exec.ok.inj hrun)).2.symm

/-! ## The constructor, the scenario of `main`, and `find` as a read -/

/-- C14 (counterexample): the constructor accepts a configuration with
`Alloc[0][0] = 5 > Max[0][0] = 0`, whose arrays do not even have matching
dimensions and whose `Need` is not `Max - Alloc`: a state is created. -/
theorem constructor_accepts_malformed :
    cell [[5]] 0 0 > cell [[0]] 0 0 ∧
      ∃ s, OS.constructor [1, 2] [[0]] [[5]] [[0], [0]] = .ok s ∧
        ¬ WellShaped s ∧ cell s.alloc 0 0 > cell s.max 0 0 ∧
        cell s.need 0 0 ≠ cell s.max 0 0 - cell s.alloc 0 0 :=
  ⟨by decide, { available := [1, 2], max := [[0]], alloc := [[5]], need := [[0], [0]] },
    rfl, by decide, by decide, by decide⟩

/-- C14 (amended): the constructor makes no test and derives nothing: for every
configuration, whatever its dimensions and entries, construction succeeds and
the state holds exactly the four arrays supplied, `Need` included.  `Need`
equals `Max - Alloc` entry for entry when the caller supplies it so, as
`factory` does. -/
theorem constructor_stores (available : List Int) (max alloc need : List (List Int)) :
    (∃ s, OS.constructor available max alloc need = .ok s ∧ s.available = available ∧
      s.max = max ∧ s.alloc = alloc ∧ s.need = need) ∧
    (OS.constructor factory.available factory.max factory.alloc factory.need = .ok factory ∧
      WellShaped factory ∧
      ∀ p, p < factory.max.length → ∀ r, r < factory.available.length →
        cell factory.need p r = cell factory.max p r - cell factory.alloc p r) :=
  ⟨⟨_, rfl, rfl, rfl, rfl, rfl⟩, rfl, by decide, by decide⟩

/-- C15: the first scenario of `main` on the state built by `factory`
(`Available = [3, 3, 2]`, `Need = Max - Alloc`): `find` returns safe with the
sequence `[1, 3, 4, 0, 2]`; `request(1, [1, 0, 2])` is granted and `Available`
becomes `[2, 3, 0]`; `request(4, [3, 3, 0])` then ends at the availability test
with the must-wait result and leaves that state; `request(0, [0, 2, 0])` then
passes both tests, is denied as unsafe, and leaves that state again, so
`Available` is still `[2, 3, 0]` and `Alloc` and `Need` are as before. -/
theorem main_scenario :
    Inv1 factory ∧
    find factory = .ok { isSafe := true, stack := [1, 3, 4, 0, 2] } ∧
    requestCheck factory 1 [1, 0, 2] = .ok .pass ∧
    request factory 1 [1, 0, 2] =
      .ok ({ isSafe := true, stack := [1, 3, 4, 0, 2] }, factoryAfterGrant) ∧
    factoryAfterGrant.available = [2, 3, 0] ∧
    requestCheck factoryAfterGrant 4 [3, 3, 0] = .ok .mustWait ∧
    request factoryAfterGrant 4 [3, 3, 0] =
      .ok ({ isSafe := true, stack := [] }, factoryAfterGrant) ∧
    requestCheck factoryAfterGrant 0 [0, 2, 0] = .ok .pass ∧
    request factoryAfterGrant 0 [0, 2, 0] =
      .ok ({ isSafe := false, stack := [] }, factoryAfterGrant) := by
  decide

theorem find_spec {s : OS} (hs : WellShaped s) :
    ∃ st, find s = .ok (verdict st) ∧ findSearch s = .ok st ∧ SearchInv s st ∧
      (unfinished st.finish ≠ 0 → Stuck s st) ∧
      st.stack.length + unfinished st.finish = s.max.length := by
  obtain ⟨st, hrun, hI, hstuck⟩ := findSearch_spec hs
  refine ⟨st, find_eq_verdict hrun, hrun, hI, hstuck, ?_⟩
  have hdp := hrun
  rw [findSearch_eq_dropPasses] at hdp
  obtain ⟨k, hk⟩ := dropPasses_ok hdp
  have hinit : unfinished (initSearch s).finish = s.max.length := unfinished_replicate _
  obtain ⟨-, -, hsum, -⟩ := (findLoopPasses_spec s s.max.length (initSearch s)
    (fun _ => le_of_eq hinit)).2 st k hk
  have hstack : (initSearch s).stack.length = 0 := rfl
  omega

theorem find_safe_perm {s : OS} (hs : WellShaped s) {res : Result} (h : find s = .ok res)
    (hsafe : res.isSafe = true) : SafeSequence s res.stack := by
  obtain ⟨st, hfind, -, hI, -, -⟩ := find_spec hs
  rw [hfind] at h
  have hres : verdict st = res := Exec.ok.inj h
  subst hres
  rw [verdict_stack]
  exact safeSequence_of_finished hI ((verdict_isSafe_iff st).mp hsafe)

theorem not_blocked_iff (s : OS) (p : Nat) : ¬ Blocked s s.available p ↔ Grantable s p := by
  unfold Blocked Grantable
  push_neg
  rfl

/-! ## The first process of the returned sequence -/

theorem findLoop_exit (s : OS) (fuel : Nat) (st : Search)
    (h : st.dispatchDetected = false) : findLoop s fuel st = .ok st := by
  have hc : ¬ (st.dispatchDetected = true ∧ unfinished st.finish ≠ 0) := by
    rw [h]; simp
  cases fuel with
  | zero => rw [findLoop, if_neg hc]
  | succ fuel => rw [findLoop, if_neg hc]

theorem pass_head {s : OS} (hs : WellShaped s) (pids : List Nat)
    (hlt : ∀ p ∈ pids, p < s.max.length) (hsorted : pids.Pairwise (· < ·))
    {st : Search} (hI : SearchInv s st) (hempty : st.stack = []) :
    ∃ st', pass s st pids = .ok st' ∧ SearchInv s st' ∧
      ((st' = st ∧ ∀ p ∈ pids, Blocked s st.tempAvailable p) ∨
       (∃ p ∈ pids, ¬ Blocked s st.tempAvailable p ∧
          (∀ q ∈ pids, q < p → Blocked s st.tempAvailable q) ∧
          st'.stack.head? = some p ∧ st'.dispatchDetected = true ∧
          unfinished st'.finish < unfinished st.finish)) := by
  induction pids generalizing st with
  | nil =>
    exact ⟨st, rfl, hI, Or.inl ⟨rfl, fun p hp => absurd hp (List.not_mem_nil p)⟩⟩
  | cons pid rest ih =>
    have hpid : pid < s.max.length := hlt pid (List.mem_cons_self pid rest)
    have hf : st.finish[pid]? = some false :=
      finish_false_of_not_mem hI hpid (by rw [hempty]; exact List.not_mem_nil pid)
    obtain ⟨st1, hv, hI1, h1⟩ := visit_spec hs hI hpid
    rcases h1 with ⟨heq, hblk⟩ | ⟨hd, hless⟩
    · subst heq
      obtain ⟨st2, hp2, hI2, h2⟩ := ih (fun p hp => hlt p (List.mem_cons_of_mem pid hp))
        (List.Pairwise.of_cons hsorted) hI hempty
      refine ⟨st2, by simp [pass, hv, hp2], hI2, ?_⟩
      rcases h2 with ⟨heq2, hall⟩ | ⟨p, hmem, hnb, hbefore, hhead, hd2, hless2⟩
      · refine Or.inl ⟨heq2, fun p hp => ?_⟩
        rcases List.mem_cons.mp hp with h | h
        · rw [h]; exact hblk hf
        · exact hall p h
      · refine Or.inr ⟨p, List.mem_cons_of_mem pid hmem, hnb, fun q hq hqp => ?_, hhead, hd2,
          hless2⟩
        rcases List.mem_cons.mp hq with h | h
        · rw [h]; exact hblk hf
        · exact hbefore q h hqp
    · have hstack : st1.stack = st.stack ++ [pid] := by
        rcases visit_ok_cases hv with heq | ⟨-, -, -, hst⟩
        · rw [heq] at hless; exact absurd hless (lt_irrefl _)
        · exact hst
      have hnb : ¬ Blocked s st.tempAvailable pid := by
        rintro ⟨r, hr, hlt'⟩
        have hrep := hI1.replay
        rw [hstack, replay_append, ← hI.work_eq] at hrep
        have := hrep.2 r hr
        omega
      obtain ⟨st2, hp2, hI2, -⟩ := pass_spec hs rest
        (fun p hp => hlt p (List.mem_cons_of_mem pid hp)) hI1
      obtain ⟨hcase, -, -, ext, hext⟩ := pass_ok_cases hp2
      refine ⟨st2, by simp [pass, hv, hp2], hI2, Or.inr ⟨pid, List.mem_cons_self pid rest, hnb,
        fun q hq hqp => ?_, ?_, ?_, ?_⟩⟩
      · rcases List.mem_cons.mp hq with h | h
        · rw [h] at hqp; exact absurd hqp (lt_irrefl _)
        · have := List.rel_of_pairwise_cons hsorted h
          omega
      · rw [hext, hstack, hempty]; rfl
      · rcases hcase with heq | ⟨hd2, -⟩
        · rw [heq]; exact hd
        · exact hd2
      · rcases hcase with heq | ⟨-, hless2⟩
        · rw [heq]; exact hless
        · exact lt_trans hless2 hless

/-- C16: within a pass the processes are examined in increasing process-id
order.  On a state with `n` processes and `m` resource types `find` returns, the
returned sequence is empty exactly when no process `p` has
`Need[p][r] <= Available[r]` for all `r`, and otherwise its first element is
the smallest process id `p` with `Need[p][r] <= Available[r]` for all `r`. -/
theorem find_first_is_smallest_grantable (s : OS) (hs : WellShaped s) :
    ∃ res, find s = .ok res ∧
      (res.stack = [] ↔ ∀ p, p < s.max.length → ¬ Grantable s p) ∧
      (∀ p, res.stack.head? = some p →
        p < s.max.length ∧ Grantable s p ∧ ∀ q, q < p → ¬ Grantable s q) := by
  obtain ⟨st, hfind, hrun, hI, -, -⟩ := find_spec hs
  refine ⟨verdict st, hfind, ?_⟩
  rw [verdict_stack]
  cases hn : s.max.length with
  | zero =>
    have hinit : findSearch s = .ok (initSearch s) := by
      unfold findSearch
      rw [hn, findLoop, if_neg]
      rintro ⟨-, h⟩
      apply h
      show unfinished (List.replicate s.max.length false) = 0
      rw [hn]; rfl
    rw [hinit] at hrun
    have hst : initSearch s = st := Exec.ok.inj hrun
    subst hst
    refine ⟨⟨fun _ p hp => absurd hp (Nat.not_lt_zero p), fun _ => rfl⟩, fun p hp => ?_⟩
    simp [initSearch] at hp
  | succ k =>
    have hc : (initSearch s).dispatchDetected = true ∧ unfinished (initSearch s).finish ≠ 0 := by
      refine ⟨rfl, ?_⟩
      show unfinished (List.replicate s.max.length false) ≠ 0
      rw [unfinished_replicate, hn]
      exact Nat.succ_ne_zero k
    have hI0 : SearchInv s { initSearch s with dispatchDetected := false } := by
      have h0 := initSearch_inv s
      exact ⟨h0.finish_len, h0.work_len, h0.work_eq, h0.replay, h0.nodup, h0.mem_iff⟩
    have hflen : (initSearch s).finish.length = s.max.length := by simp [initSearch]
    obtain ⟨st1, hpass, hI1, h1⟩ := pass_head hs (List.range (initSearch s).finish.length)
      (fun p hp => by rw [hflen] at hp; exact List.mem_range.mp hp) (List.pairwise_lt_range _)
      hI0 rfl
    have hstep : findSearch s = findLoop s k st1 := by
      unfold findSearch
      rw [hn, findLoop]
      simp only [if_pos hc, hpass]
    rw [hstep] at hrun
    rw [← hn]
    rcases h1 with ⟨heq, hall⟩ | ⟨p, hmem, hnb, hbefore, hhead, hd, hless⟩
    · have hexit : findLoop s k st1 = .ok st1 := findLoop_exit s k st1 (by rw [heq])
      rw [hexit] at hrun
      have hst : st1 = st := Exec.ok.inj hrun
      rw [← hst, heq]
      refine ⟨⟨fun _ q hq => ?_, fun _ => rfl⟩, fun q hq => ?_⟩
      · rw [← not_blocked_iff]
        exact fun h => h (hall q (List.mem_range.mpr (by rw [hflen]; exact hq)))
      · simp [initSearch] at hq
    · rw [hflen] at hmem
      have hpn : p < s.max.length := List.mem_range.mp hmem
      rw [findLoop_eq_dropPasses] at hrun
      obtain ⟨k2, hk2⟩ := dropPasses_ok hrun
      have hbud : st1.dispatchDetected = true → unfinished st1.finish ≤ k := by
        intro _
        have hu : unfinished (initSearch s).finish = s.max.length := unfinished_replicate _
        have hless' : unfinished st1.finish < unfinished (initSearch s).finish := hless
        omega
      obtain ⟨-, -, -, ext, hext⟩ := (findLoopPasses_spec s k st1 hbud).2 st k2 hk2
      have hhd : st.stack.head? = some p := by
        rw [hext]
        cases hs1 : st1.stack with
        | nil => rw [hs1] at hhead; cases hhead
        | cons a rest => rw [hs1] at hhead; simpa using hhead
      have hgr : Grantable s p := (not_blocked_iff s p).mp hnb
      refine ⟨⟨fun hnil => ?_, fun hno => absurd hgr (hno p hpn)⟩, fun q hq => ?_⟩
      · rw [hnil] at hhd; cases hhd
      · rw [hhd] at hq
        have hqp : p = q := Option.some.inj hq
        subst hqp
        refine ⟨hpn, hgr, fun q hq hg => ?_⟩
        exact (not_blocked_iff s q).mpr hg
          (hbefore q (List.mem_range.mpr (by rw [hflen]; omega)) hq)

/-- Witness for C16: on the `factory` state the sequence starts with process 1. -/
theorem find_first_is_smallest_grantable_witness :
    WellShaped factory ∧
      ∃ res, find factory = .ok res ∧
        (res.stack = [] ↔ ∀ p, p < factory.max.length → ¬ Grantable factory p) ∧
        (∀ p, res.stack.head? = some p →
          p < factory.max.length ∧ Grantable factory p ∧ ∀ q, q < p → ¬ Grantable factory q) :=
  ⟨by decide, find_first_is_smallest_grantable factory (by decide)⟩

/-! ## Telling the outcomes of `request` apart; the unsafe result of `find` -/

/-- C19: the must-wait result is distinguishable from a grant.  For a valid
`pid` (so `n >= 1`) and a request vector of length `m`, `request(pid, req)`
returns, and it returns `isSafe = true` with an empty sequence if and only if
the call ended at the availability test (must wait), in which case the state
is unchanged; a granted request (both tests passed, `isSafe = true`) returns a
sequence of length exactly `n`. -/
theorem request_wait_distinguishable (s : OS) (pid : Nat) (req : List Int)
    (hs : WellShaped s) (hp : pid < s.max.length) (hr : req.length = s.available.length) :
    ∃ res s', request s pid req = .ok (res, s') ∧
      ((res.isSafe = true ∧ res.stack = []) ↔ requestCheck s pid req = .ok .mustWait) ∧
      (requestCheck s pid req = .ok .mustWait → s' = s) ∧
      (requestCheck s pid req = .ok .pass → res.isSafe = true →
        res.stack.length = s.max.length) := by
  rcases request_cases hs hp hr with ⟨hc, h⟩ | ⟨hc, h⟩ | ⟨hc, -, res, hfind, h⟩
  · refine ⟨_, _, h, ⟨fun hh => ?_, fun hh => ?_⟩, fun hh => rfl, fun hh => ?_⟩
    · exact absurd hh.1 (by simp)
    · rw [hc] at hh; cases hh
    · rw [hc] at hh; cases hh
  · refine ⟨_, _, h, ⟨fun _ => hc, fun _ => ⟨rfl, rfl⟩⟩, fun _ => rfl, fun hh => ?_⟩
    rw [hc] at hh; cases hh
  · have hlen : res.isSafe = true → res.stack.length = s.max.length := by
      intro hsafe
      have hperm := (find_safe_perm (tentativeState_shape hs pid hr) hfind hsafe).1
      rw [hperm.length_eq, List.length_range]
      rfl
    refine ⟨_, _, h, ⟨fun hh => ?_, fun hh => ?_⟩, fun hh => ?_, fun _ hsafe => hlen hsafe⟩
    · have := hlen hh.1
      rw [hh.2] at this
      simp only [List.length_nil] at this
      omega
    · rw [hc] at hh; cases hh
    · rw [hc] at hh; cases hh

/-- Witness for C19: `request({ pid: 4, req: [3, 3, 0] })` after the grant to
process 1. -/
theorem request_wait_distinguishable_witness :
    WellShaped factoryAfterGrant ∧ 4 < factoryAfterGrant.max.length ∧
      ([3, 3, 0] : List Int).length = factoryAfterGrant.available.length ∧
      ∃ res s', request factoryAfterGrant 4 [3, 3, 0] = .ok (res, s') ∧
        ((res.isSafe = true ∧ res.stack = []) ↔
          requestCheck factoryAfterGrant 4 [3, 3, 0] = .ok .mustWait) ∧
        (requestCheck factoryAfterGrant 4 [3, 3, 0] = .ok .mustWait → s' = factoryAfterGrant) ∧
        (requestCheck factoryAfterGrant 4 [3, 3, 0] = .ok .pass → res.isSafe = true →
          res.stack.length = factoryAfterGrant.max.length) :=
  ⟨by decide, by decide, by decide,
    request_wait_distinguishable factoryAfterGrant 4 [3, 3, 0] (by decide) (by decide)
      (by decide)⟩

theorem reportsSafe_iff (s : OS) :
    reportsSafe s = true ↔ ∃ res, find s = .ok res ∧ res.isSafe = true := by
  unfold reportsSafe
  cases h : find s with
  | ok res => simp
  | fault f => simp

theorem find_safe_of_safeSequence {s : OS} (hs : WellShaped s) (hnn : AllocNonneg s)
    {seq : List Nat} (hseq : SafeSequence s seq) : reportsSafe s = true := by
  obtain ⟨st, hfind, -, hI, hstuck, -⟩ := find_spec hs
  rw [reportsSafe_iff]
  refine ⟨verdict st, hfind, ?_⟩
  rw [verdict_isSafe_iff]
  by_contra hun
  have hne : unfinished st.finish ≠ 0 := fun h => hun ((unfinished_eq_zero_iff _).mp h)
  exact not_safeSequence_of_stuck hs hnn hI (hstuck hne) hun seq hseq

theorem replay_released {s : OS} (hs : WellShaped s) (ha : AllocNonneg s) {pid : Nat}
    (hp : pid < s.max.length) (seq : List Nat) (hnd : seq.Nodup)
    (hlt : ∀ p ∈ seq, p < s.max.length) (w w' : List Int)
    (hw : w.length = s.available.length) (hw' : w'.length = s.available.length)
    (hge : ∀ r, r < s.available.length → w.getD r 0 ≤ w'.getD r 0)
    (hpid : pid ∈ seq → ∀ r, r < s.available.length →
      w.getD r 0 + cell s.alloc pid r ≤ w'.getD r 0)
    (hpos : ∀ r, r < s.available.length → 0 ≤ w'.getD r 0)
    (hrep : Replay s w seq) : Replay (releasedState s pid) w' seq := by
  induction seq generalizing w w' with
  | nil => trivial
  | cons q rest ih =>
    obtain ⟨hq, hrest⟩ := hrep
    have hqn : q < s.max.length := hlt q (List.mem_cons_self q rest)
    have hqa : q < s.alloc.length := by rw [hs.1]; exact hqn
    have hqa' : q < (releasedState s pid).alloc.length := by
      show q < (s.alloc.set pid _).length
      rw [List.length_set]; exact hqa
    have hrowlen : (s.alloc.getD q []).length = s.available.length :=
      getD_row_length hs.2.2.2.1 hqa
    have hrowlen' : ((releasedState s pid).alloc.getD q []).length = s.available.length := by
      rw [getD_row_length (releasedState_shape hs hp).2.2.2.1 hqa',
        released_available_length hs hp]
    have hcell' : ∀ r, ((releasedState s pid).alloc.getD q []).getD r 0 =
        if q = pid then 0 else cell s.alloc q r := fun r => released_alloc_cell hs hp q r
    have hcell : ∀ r, (s.alloc.getD q []).getD r 0 = cell s.alloc q r := fun r => rfl
    refine ⟨fun r hr => ?_, ?_⟩
    · rw [released_available_length hs hp] at hr
      rw [released_need_cell hs hp]
      by_cases hqp : q = pid
      · rw [if_pos hqp]; exact hpos r hr
      · rw [if_neg hqp]; exact le_trans (hq r hr) (hge r hr)
    · refine ih (List.Nodup.of_cons hnd) (fun p hp' => hlt p (List.mem_cons_of_mem q hp'))
        _ _ (by rw [List.length_zipWith, hw, hrowlen, min_self])
        (by rw [List.length_zipWith, hw', hrowlen', min_self]) (fun r hr => ?_)
        (fun hmem r hr => ?_) (fun r hr => ?_) hrest
      · rw [getD_zipWith_add _ _ _ (by rw [hw, hrowlen]),
          getD_zipWith_add _ _ _ (by rw [hw', hrowlen']), hcell, hcell']
        by_cases hqp : q = pid
        · rw [if_pos hqp]
          have := hpid (by rw [hqp]; exact List.mem_cons_self pid rest) r hr
          rw [hqp]
          linarith
        · rw [if_neg hqp]
          have := hge r hr
          linarith
      · have hqp : q ≠ pid := by
          intro h
          rw [h] at hnd
          exact (List.nodup_cons.mp hnd).1 hmem
        rw [getD_zipWith_add _ _ _ (by rw [hw, hrowlen]),
          getD_zipWith_add _ _ _ (by rw [hw', hrowlen']), hcell, hcell', if_neg hqp]
        have := hpid (List.mem_cons_of_mem q hmem) r hr
        linarith
      · rw [getD_zipWith_add _ _ _ (by rw [hw', hrowlen']), hcell']
        have h1 := hpos r hr
        have h2 := ha q hqn r hr
        by_cases hqp : q = pid
        · rw [if_pos hqp]; linarith
        · rw [if_neg hqp]; linarith

theorem released_allocNonneg {s : OS} (hs : WellShaped s) (ha : AllocNonneg s) {pid : Nat}
    (hp : pid < s.max.length) : AllocNonneg (releasedState s pid) := by
  intro p hpn r hr
  rw [released_available_length hs hp] at hr
  rw [released_alloc_cell hs hp]
  by_cases hpp : p = pid
  · rw [if_pos hpp]
  · rw [if_neg hpp]; exact ha p hpn r hr

theorem released_availableNonneg {s : OS} (hs : WellShaped s) (ha : AllocNonneg s)
    (hv : AvailableNonneg s) {pid : Nat} (hp : pid < s.max.length) :
    AvailableNonneg (releasedState s pid) := by
  intro r hr
  rw [released_available_length hs hp] at hr
  rw [released_available_getD hs hp]
  have h1 := hv r hr
  have h2 := ha pid hp r hr
  linarith

theorem released_reportsSafe {s : OS} (hs : WellShaped s) (ha : AllocNonneg s)
    (hv : AvailableNonneg s) (hsafe : reportsSafe s = true) {pid : Nat}
    (hp : pid < s.max.length) : reportsSafe (releasedState s pid) = true := by
  obtain ⟨res, hfind, hres⟩ := (reportsSafe_iff s).mp hsafe
  obtain ⟨hperm, hrep⟩ := find_safe_perm hs hfind hres
  have hrep' : Replay (releasedState s pid) (releasedState s pid).available res.stack := by
    refine replay_released hs ha hp res.stack (hperm.nodup_iff.mpr (List.nodup_range _))
      (fun p hp' => List.mem_range.mp (hperm.mem_iff.mp hp')) s.available _ rfl
      (released_available_length hs hp) (fun r hr => ?_) (fun _ r hr => ?_) (fun r hr => ?_)
      hrep
    · rw [released_available_getD hs hp]
      have := ha pid hp r hr
      linarith
    · rw [released_available_getD hs hp]
    · exact released_availableNonneg hs ha hv hp r
        (by rw [released_available_length hs hp]; exact hr)
  exact find_safe_of_safeSequence (releasedState_shape hs hp) (released_allocNonneg hs ha hp)
    ⟨hperm, hrep'⟩

theorem request_safe_cases {s : OS} (hs : WellShaped s) {pid : Nat}
    (hp : pid < s.max.length) {req : List Int} (hr : req.length = s.available.length) :
    ∃ res s', request s pid req = .ok (res, s') ∧
      (s' = s ∨
        (s' = tentativeState s pid req ∧ reportsSafe (tentativeState s pid req) = true ∧
          ∀ r, r < s.available.length →
            req.getD r 0 ≤ cell s.need pid r ∧ req.getD r 0 ≤ s.available.getD r 0)) := by
  rcases request_cases hs hp hr with ⟨-, h⟩ | ⟨-, h⟩ | ⟨-, hle, res, hfind, h⟩
  · exact ⟨_, _, h, Or.inl rfl⟩
  · exact ⟨_, _, h, Or.inl rfl⟩
  · refine ⟨_, _, h, ?_⟩
    by_cases hsafe : res.isSafe = true
    · rw [if_pos hsafe]
      exact Or.inr ⟨rfl, (reportsSafe_iff _).mpr ⟨res, hfind, hsafe⟩, hle⟩
    · rw [if_neg hsafe]; exact Or.inl rfl

theorem step_preserves {s : OS} (hs : WellShaped s) (ha : AllocNonneg s)
    (hv : AvailableNonneg s) (hsafe : reportsSafe s = true) {c : Call}
    (hc : c.Admissible s.max.length s.available.length) :
    ∃ s', step s c = .ok s' ∧ WellShaped s' ∧ AllocNonneg s' ∧ AvailableNonneg s' ∧
      reportsSafe s' = true ∧ s'.max.length = s.max.length ∧
      s'.available.length = s.available.length := by
  cases c with
  | request pid req =>
    obtain ⟨hp, hr, hreq⟩ := hc
    obtain ⟨res, s', hcall, hcase⟩ := request_safe_cases hs hp hr
    refine ⟨s', by simp [step, hcall], ?_⟩
    rcases hcase with h | ⟨h, hts, hle⟩
    · rw [h]; exact ⟨hs, ha, hv, hsafe, rfl, rfl⟩
    · rw [h]
      refine ⟨tentativeState_shape hs pid hr, ?_, ?_, hts, rfl,
        tentative_available_length pid hr⟩
      · intro p hpn r hrm
        rw [tentative_available_length pid hr] at hrm
        rw [tentative_alloc_cell hs hp hr]
        by_cases hpp : p = pid
        · rw [if_pos hpp]
          have h1 := ha pid hp r hrm
          have h2 := hreq r hrm
          linarith
        · rw [if_neg hpp]; exact ha p hpn r hrm
      · intro r hrm
        rw [tentative_available_length pid hr] at hrm
        rw [tentative_available_getD pid hr]
        have := (hle r hrm).2
        linarith
  | release pid =>
    have hp : pid < s.max.length := hc
    exact ⟨releasedState s pid, release_eq hs hp, releasedState_shape hs hp,
      released_allocNonneg hs ha hp, released_availableNonneg hs ha hv hp,
      released_reportsSafe hs ha hv hsafe hp, rfl, released_available_length hs hp⟩

theorem run_preserves (calls : List Call) {n m : Nat} (hc : ∀ c ∈ calls, c.Admissible n m)
    {s : OS} (hn : s.max.length = n) (hm : s.available.length = m) (hs : WellShaped s)
    (ha : AllocNonneg s) (hv : AvailableNonneg s) (hsafe : reportsSafe s = true) :
    ∃ s', run s calls = .ok s' ∧ reportsSafe s' = true := by
  induction calls generalizing s with
  | nil => exact ⟨s, rfl, hsafe⟩
  | cons c rest ih =>
    have hadm : c.Admissible s.max.length s.available.length := by
      rw [hn, hm]; exact hc c (List.mem_cons_self c rest)
    obtain ⟨s1, hstep, hs1, ha1, hv1, hsafe1, hn1, hm1⟩ := step_preserves hs ha hv hsafe hadm
    obtain ⟨s2, hrun, hsafe2⟩ := ih (fun d hd => hc d (List.mem_cons_of_mem c hd))
      (by rw [hn1, hn]) (by rw [hm1, hm]) hs1 ha1 hv1 hsafe1
    exact ⟨s2, by simp [run, hstep, hrun], hsafe2⟩

end Banker
